import Mathlib

/-!
# Verification of kopia's v1 pack index and snapshot GC

A shallow embedding of `repo/content/index_v1.go` (pack index builder and
reader) and `snapshot/snapshotgc/gc.go` (snapshot garbage collector),
with theorems settling the specification claims.

Bytes are modelled as `Nat` (well-formedness `< 256` is carried as a
hypothesis where it matters); byte strings and files are `List Nat`.
Go's fixed-width unsigned arithmetic is modelled with explicit `% 2^w`.
Fallible operations return `Except String` / `Option`.
-/

namespace Kopia

/-! ## Byte-string lexicographic order

Models Go's comparison of `[]byte` / `string` values (used by
`contentIDBytesGreaterOrEqual` and by `ID` comparisons such as
`contentID >= r.EndID`): lexicographic, with a proper prefix ordered
before its extensions. -/

/-- Strict lexicographic order on byte strings (Go `string`/`[]byte` `<`). -/
def bytesLt : List Nat → List Nat → Bool
  | _, [] => false
  | [], _ :: _ => true
  | a :: as, b :: bs => if a < b then true else if b < a then false else bytesLt as bs

/-- `a ≤ b` on byte strings (Go `string` `<=`), defined as `¬ (b < a)`. -/
def bytesLe (a b : List Nat) : Bool := !(bytesLt b a)

theorem bytesLt_irrefl (a : List Nat) : bytesLt a a = false := by
  induction a with
  | nil => rfl
  | cons x xs ih => simp [bytesLt, ih]

theorem bytesLt_trichotomy (a b : List Nat) :
    bytesLt a b = true ∨ bytesLt b a = true ∨ a = b := by
  induction a generalizing b with
  | nil => cases b <;> simp [bytesLt]
  | cons x xs ih =>
    cases b with
    | nil => simp [bytesLt]
    | cons y ys =>
      rcases Nat.lt_trichotomy x y with h | h | h
      · left; simp [bytesLt, h]
      · subst h
        rcases ih ys with h2 | h2 | h2
        · left; simp [bytesLt, h2]
        · right; left; simp [bytesLt, h2]
        · right; right; simp [h2]
      · right; left; simp [bytesLt, h]

theorem bytesLt_trans {a b c : List Nat} (h1 : bytesLt a b = true)
    (h2 : bytesLt b c = true) : bytesLt a c = true := by
  induction a generalizing b c with
  | nil =>
    cases c with
    | nil => cases b <;> simp [bytesLt] at h1 h2
    | cons z zs => simp [bytesLt]
  | cons x xs ih =>
    cases b with
    | nil => simp [bytesLt] at h1
    | cons y ys =>
      cases c with
      | nil => simp [bytesLt] at h2
      | cons z zs =>
        simp only [bytesLt] at h1 h2 ⊢
        by_cases hxy : x < y
        · by_cases hyz : y < z
          · simp [Nat.lt_trans hxy hyz]
          · by_cases hzy : z < y
            · simp at h2; omega
            · have : y = z := by omega
              subst this; simp [hxy]
        · by_cases hyx : y < x
          · simp [hxy, hyx] at h1
          · have hxy' : x = y := by omega
            subst hxy'
            simp [hxy] at h1
            by_cases hyz : x < z
            · simp [hyz]
            · by_cases hzy : z < x
              · simp [hyz, hzy] at h2
              · have : x = z := by omega
                subst this
                simp [hxy] at h2 ⊢
                exact ih h1 h2

theorem bytesLt_asymm {a b : List Nat} (h : bytesLt a b = true) :
    bytesLt b a = false := by
  by_contra hc
  have hb : bytesLt b a = true := by
    cases hba : bytesLt b a with
    | false => exact absurd hba hc
    | true => rfl
  have := bytesLt_trans h hb
  rw [bytesLt_irrefl] at this
  exact Bool.false_ne_true this

theorem bytesLe_refl (a : List Nat) : bytesLe a a = true := by
  simp [bytesLe, bytesLt_irrefl]

theorem bytesLe_iff {a b : List Nat} :
    bytesLe a b = true ↔ bytesLt b a = false := by
  simp [bytesLe]

theorem bytesLe_total (a b : List Nat) :
    bytesLe a b = true ∨ bytesLe b a = true := by
  rcases bytesLt_trichotomy a b with h | h | h
  · left; exact bytesLe_iff.mpr (bytesLt_asymm h)
  · right; exact bytesLe_iff.mpr (bytesLt_asymm h)
  · subst h; left; exact bytesLe_refl a

theorem bytesLe_antisymm {a b : List Nat} (h1 : bytesLe a b = true)
    (h2 : bytesLe b a = true) : a = b := by
  rw [bytesLe_iff] at h1 h2
  rcases bytesLt_trichotomy a b with h | h | h
  · rw [h] at h2; exact absurd h2 (by simp)
  · rw [h] at h1; exact absurd h1 (by simp)
  · exact h

theorem bytesLe_trans {a b c : List Nat} (h1 : bytesLe a b = true)
    (h2 : bytesLe b c = true) : bytesLe a c = true := by
  rw [bytesLe_iff] at h1 h2 ⊢
  by_contra hc
  have hca : bytesLt c a = true := by
    cases h : bytesLt c a with
    | false => exact absurd h hc
    | true => rfl
  rcases bytesLt_trichotomy a b with h | h | h
  · have := bytesLt_trans hca h
    rw [this] at h2; exact absurd h2 (by simp)
  · rw [h] at h1; exact absurd h1 (by simp)
  · subst h; rw [hca] at h2; exact absurd h2 (by simp)

theorem bytesLt_of_le_of_ne {a b : List Nat} (h1 : bytesLe a b = true)
    (h2 : a ≠ b) : bytesLt a b = true := by
  rcases bytesLt_trichotomy a b with h | h | h
  · exact h
  · rw [bytesLe_iff, h] at h1; exact absurd h1 (by simp)
  · exact absurd h h2

theorem bytesLe_of_lt {a b : List Nat} (h : bytesLt a b = true) :
    bytesLe a b = true := bytesLe_iff.mpr (bytesLt_asymm h)

theorem bytesLt_nil_le (a : List Nat) : bytesLe [] a = true := by
  cases a <;> simp [bytesLe, bytesLt]

/-! ## The `io.ReaderAt` model

A file is a byte list; `ReadAt(p, off)` with `len(p) = n` succeeds iff
the requested range lies within the file (Go returns `io.EOF` together
with a short count otherwise, which every caller in `index_v1.go`
treats as an error via `err != nil || n != len(...)`). -/

/-- Read `n` bytes at offset `off`; `none` models a read error / short read. -/
def readAt (file : List Nat) (off n : Nat) : Option (List Nat) :=
  if off + n ≤ file.length then some ((file.drop off).take n) else none

theorem readAt_eq_some {file : List Nat} {off n : Nat}
    (h : off + n ≤ file.length) :
    readAt file off n = some ((file.drop off).take n) := by
  simp [readAt, h]

/-! ## Big-endian integer helpers

`binary.BigEndian.PutUint32/PutUint64` and the hand-rolled decoders
`decodeBigEndianUint48` / `decodeBigEndianUint32` of `index_v1.go`.
Encoders truncate naturally modulo the width, exactly as Go's
fixed-width types do. -/

/-- `binary.BigEndian.PutUint16`. -/
def putUint16BE (v : Nat) : List Nat :=
  [v / 2 ^ 8 % 256, v % 256]

/-- `binary.BigEndian.PutUint32`. -/
def putUint32BE (v : Nat) : List Nat :=
  [v / 2 ^ 24 % 256, v / 2 ^ 16 % 256, v / 2 ^ 8 % 256, v % 256]

/-- `binary.BigEndian.PutUint64`. -/
def putUint64BE (v : Nat) : List Nat :=
  [v / 2 ^ 56 % 256, v / 2 ^ 48 % 256, v / 2 ^ 40 % 256, v / 2 ^ 32 % 256,
   v / 2 ^ 24 % 256, v / 2 ^ 16 % 256, v / 2 ^ 8 % 256, v % 256]

/-- `decodeBigEndianUint48(d)`: `int64(d[0])<<40 | ... | int64(d[5])`. -/
def decodeBigEndianUint48 (d : List Nat) : Nat :=
  (d.getD 0 0) <<< 40 ||| (d.getD 1 0) <<< 32 ||| (d.getD 2 0) <<< 24 |||
  (d.getD 3 0) <<< 16 ||| (d.getD 4 0) <<< 8 ||| (d.getD 5 0)

/-- `decodeBigEndianUint32(d)`: `uint32(d[0])<<24 | ... | uint32(d[3])`. -/
def decodeBigEndianUint32 (d : List Nat) : Nat :=
  (d.getD 0 0) <<< 24 ||| (d.getD 1 0) <<< 16 ||| (d.getD 2 0) <<< 8 ||| (d.getD 3 0)

/-- Or of a shifted value with a small value is addition (disjoint bit ranges). -/
theorem shiftLeft_or_eq_add {x y k : Nat} (hy : y < 2 ^ k) :
    (x <<< k) ||| y = x <<< k + y := by
  rw [Nat.shiftLeft_eq]
  apply Nat.eq_of_testBit_eq
  intro j
  rw [Nat.testBit_or]
  have hmul : x * 2 ^ k = 2 ^ k * x := Nat.mul_comm _ _
  rw [hmul, Nat.testBit_mul_pow_two_add x hy j, Nat.testBit_mul_pow_two]
  by_cases hj : j < k
  · simp [hj, Nat.not_le_of_lt hj]
  · have hyj : Nat.testBit y j = false :=
      Nat.testBit_lt_two_pow (Nat.lt_of_lt_of_le hy (Nat.pow_le_pow_right (by omega) (by omega)))
    simp [hj, Nat.le_of_not_lt hj, hyj]

/-! ## Content IDs and keys

Modelled from the spec (§4.A): a content ID is an optional single-byte
prefix followed by the hex encoding of a digest; `idToBytes` emits the
prefix byte followed by the raw digest bytes and is reversible, and
`bytesToId` is its inverse.  The encoding is an order-preserving
bijection between IDs and their byte keys, so we represent a content ID
*by* its byte-key encoding; the two conversions (`contentIDToBytes`,
`bytesToContentID`, both outside `src/`) are then the identity, and ID
comparison coincides with byte-key comparison. -/

/-- Modelled from the spec: `contentIDToBytes` (not under `src/`) — with IDs
represented by their byte keys, the conversion is the identity. -/
def contentIDToBytes (id : List Nat) : List Nat := id

/-- Modelled from the spec: `bytesToContentID` (not under `src/`) — inverse of
`contentIDToBytes`, here the identity. -/
def bytesToContentID (b : List Nat) : List Nat := b

/-- Modelled from the spec: `contentIDBytesGreaterOrEqual` (not under `src/`) —
`bytes.Compare(a, b) >= 0`, i.e. lexicographic `a ≥ b` on byte keys. -/
def contentIDBytesGreaterOrEqual (a b : List Nat) : Bool := bytesLe b a

/-! ## Index entries and constants (`index_v1.go`) -/

/-- `packHeaderSize`. -/
def packHeaderSize : Nat := 8

/-- `deletedMarker = 0x80000000`. -/
def deletedMarker : Nat := 0x80000000

/-- `entryFixedHeaderLength`. -/
def entryFixedHeaderLength : Nat := 20

/-- `randomSuffixSize`. -/
def randomSuffixSize : Nat := 32

/-- Modelled from the spec: `unknownKeySize` (not under `src/`) — the key-size
byte of an index built from no entries (`byte(-1) = 255`), the "empty
sentinel" of §4.B. -/
def unknownKeySize : Nat := 255

/-- The `Info`-shaped record a builder entry carries (the fields the
builder reads through the `Info` interface: `GetContentID`,
`GetTimestampSeconds`, `GetFormatVersion`, `GetPackBlobID`,
`GetDeleted`, `GetPackOffset`, `GetPackedLength`). -/
structure InfoE where
  contentID : List Nat
  timestampSeconds : Nat
  formatVersion : Nat
  packBlobID : List Nat
  deleted : Bool
  packOffset : Nat
  packedLength : Nat
  deriving DecidableEq, Repr

/-! ## The builder (`packIndexBuilder.buildV1`) -/

/-- Ordering of builder entries by content-ID bytes. -/
def entryLe (a b : InfoE) : Prop := bytesLe a.contentID b.contentID = true

instance : DecidableRel entryLe := fun _ _ =>
  inferInstanceAs (Decidable (_ = true))

instance : IsTotal InfoE entryLe :=
  ⟨fun a b => bytesLe_total a.contentID b.contentID⟩

instance : IsTrans InfoE entryLe :=
  ⟨fun _ _ _ h1 h2 => bytesLe_trans h1 h2⟩

/-- Modelled from the spec: `packIndexBuilder.sortedContents` (not under
`src/`) — §4.C step 1, "sorts entries by content-ID bytes ascending". -/
def sortedContents (l : List InfoE) : List InfoE := List.insertionSort entryLe l

/-- Association-list lookup for the `packBlobIDOffsets` map. -/
def findOffset : List (List Nat × Nat) → List Nat → Option Nat
  | [], _ => none
  | (k, v) :: rest, b => if k = b then some v else findOffset rest b

/-- `prepareExtraData`'s pooling loop: returns the extra-data bytes and the
`packBlobIDOffsets` map (first occurrence of each distinct non-empty pack
blob ID is appended and its offset recorded). -/
def poolBlobIDs (l : List InfoE) : List Nat × List (List Nat × Nat) :=
  l.foldl
    (fun acc it =>
      if it.packBlobID ≠ [] then
        match findOffset acc.2 it.packBlobID with
        | some _ => acc
        | none => (acc.1 ++ it.packBlobID, acc.2 ++ [(it.packBlobID, acc.1.length)])
      else acc)
    ([], [])

/-- The builder's `keyLength` field (starts at `-1`, set from the first
sorted entry's key length in `prepareExtraData`). -/
def keyLengthZ : List InfoE → Int
  | [] => -1
  | e :: _ => e.contentID.length

/-- The key-size byte written to the header: `byte(b1.keyLength)`
(two's-complement truncation; `byte(-1) = 255`). -/
def keyLengthByte : List InfoE → Nat
  | [] => 255
  | e :: _ => e.contentID.length % 256

/-- `b.extraDataOffset = uint32(packHeaderSize + b.entryCount*(b.keyLength+b.entryLength))`. -/
def extraDataOffsetOf (l : List InfoE) : Nat :=
  (packHeaderSize + l.length * ((keyLengthZ l).toNat + entryFixedHeaderLength)) % 2 ^ 32

/-- `indexBuilderV1.formatEntry`: the 20 value bytes of one entry. -/
def formatEntry (extraOff : Nat) (offs : List (List Nat × Nat)) (it : InfoE) :
    Except String (List Nat) :=
  if it.packBlobID = [] then .error "empty pack content ID"
  else
    let blobOff := (findOffset offs it.packBlobID).getD 0
    let timestampAndFlags :=
      (it.timestampSeconds <<< 16) ||| (it.formatVersion <<< 8) ||| it.packBlobID.length
    .ok (putUint64BE timestampAndFlags ++
      putUint32BE ((extraOff + blobOff) % 2 ^ 32) ++
      putUint32BE (if it.deleted then it.packOffset ||| deletedMarker else it.packOffset) ++
      putUint32BE it.packedLength)

/-- `indexBuilderV1.writeEntry`: key-length consistency check, then
`keyBytes || entryBytes`. -/
def writeEntry (keyLen : Int) (extraOff : Nat) (offs : List (List Nat × Nat))
    (it : InfoE) : Except String (List Nat) :=
  if ((contentIDToBytes it.contentID).length : Int) ≠ keyLen then .error "inconsistent key length"
  else (formatEntry extraOff offs it).map (fun e => contentIDToBytes it.contentID ++ e)

/-- `packIndexBuilder.buildV1`: header, sorted `key || entry` rows, pooled
extra data, random suffix.  The 32-byte random suffix is passed in as a
parameter (it comes from `crypto/rand`). -/
def buildV1 (S : List InfoE) (randomSuffix : List Nat) : Except String (List Nat) :=
  let all := sortedContents S
  let pool := poolBlobIDs all
  let extraOff := extraDataOffsetOf all
  let header := 1 :: keyLengthByte all :: (putUint16BE entryFixedHeaderLength ++
    putUint32BE (all.length % 2 ^ 32))
  (all.mapM (writeEntry (keyLengthZ all) extraOff pool.2)).map
    (fun rows => header ++ rows.flatten ++ pool.1 ++ randomSuffix)

/-! ## The reader (`indexV1`) -/

/-- `indexV1`: header fields plus the retained `ReaderAt` (the file
bytes) and the per-content overhead from the encryptor. -/
structure IndexV1 where
  keySize : Nat
  valueSize : Nat
  entryCount : Nat
  fileData : List Nat
  v1PerContentOverhead : Nat
  deriving DecidableEq, Repr

/-- `indexEntryInfoV1`: raw value bytes, content ID, back-reference to the
index. -/
structure IndexEntryInfoV1 where
  data : List Nat
  contentID : List Nat
  b : IndexV1
  deriving DecidableEq, Repr

/-- The `"-invalid-blob-id-"` sentinel, as bytes. -/
def invalidBlobID : List Nat :=
  [45, 105, 110, 118, 97, 108, 105, 100, 45, 98, 108, 111, 98, 45, 105, 100, 45]

/-- Go `uint32` subtraction `a - b` (wraps modulo `2^32`). -/
def sub32 (a b : Nat) : Nat := (a % 2 ^ 32 + (2 ^ 32 - b % 2 ^ 32)) % 2 ^ 32

namespace IndexEntryInfoV1

/-- `GetContentID`. -/
def GetContentID (e : IndexEntryInfoV1) : List Nat := e.contentID

/-- `GetTimestampSeconds`: 48-bit big-endian at offset 0. -/
def GetTimestampSeconds (e : IndexEntryInfoV1) : Nat :=
  decodeBigEndianUint48 e.data

/-- `GetFormatVersion`: byte 6. -/
def GetFormatVersion (e : IndexEntryInfoV1) : Nat := e.data.getD 6 0

/-- `GetPackBlobID`: reads `data[7]` bytes at file offset `BE32(data[8:12])`;
on a failed read returns the `"-invalid-blob-id-"` sentinel. -/
def GetPackBlobID (e : IndexEntryInfoV1) : List Nat :=
  let nameLength := e.data.getD 7 0
  let nameOffset := decodeBigEndianUint32 (e.data.drop 8)
  match readAt e.b.fileData nameOffset nameLength with
  | some s => s
  | none => invalidBlobID

/-- `GetDeleted`: `data[12]&0x80 != 0`. -/
def GetDeleted (e : IndexEntryInfoV1) : Bool :=
  e.data.getD 12 0 &&& 0x80 != 0

/-- `GetPackOffset`: `BE32(data[12:16]) & (1<<31 - 1)`. -/
def GetPackOffset (e : IndexEntryInfoV1) : Nat :=
  decodeBigEndianUint32 (e.data.drop 12) &&& (2 ^ 31 - 1)

/-- `GetPackedLength`: `BE32(data[16:20])`. -/
def GetPackedLength (e : IndexEntryInfoV1) : Nat :=
  decodeBigEndianUint32 (e.data.drop 16)

/-- `GetOriginalLength`: `GetPackedLength() - v1PerContentOverhead` in
unguarded `uint32` arithmetic. -/
def GetOriginalLength (e : IndexEntryInfoV1) : Nat :=
  sub32 e.GetPackedLength e.b.v1PerContentOverhead

end IndexEntryInfoV1

/-- The tuple of `Info` accessor values of a view — used to compare what a
reader observes against what the builder was given. -/
def viewFields (v : IndexEntryInfoV1) : InfoE :=
  ⟨v.GetContentID, v.GetTimestampSeconds, v.GetFormatVersion, v.GetPackBlobID,
    v.GetDeleted, v.GetPackOffset, v.GetPackedLength⟩

/-- Modelled from the spec: `Open` for a version-1 index (not under `src/`) —
§4.B: read the 8-byte header, validate version `== 1` and entry size
`== 20`, record key size and entry count, retain the reader. -/
def openV1 (file : List Nat) (overhead : Nat) : Except String IndexV1 :=
  match readAt file 0 packHeaderSize with
  | none => .error "invalid header"
  | some h =>
    if h.getD 0 0 ≠ 1 then .error "invalid header version"
    else if h.getD 2 0 * 256 + h.getD 3 0 ≠ entryFixedHeaderLength then .error "invalid entry size"
    else .ok ⟨h.getD 1 0, h.getD 2 0 * 256 + h.getD 3 0,
      decodeBigEndianUint32 (h.drop 4), file, overhead⟩

/-- Go's `sort.Search` over `[i, j)`, with the `readErr` capture of
`findEntryPosition`: the probe returns `none` on a read error, after which
(and while an error is recorded) the predicate evaluates as `false`. -/
def sortSearchGo (f : Nat → Option Bool) (i j : Nat) (err : Bool) : Nat × Bool :=
  if h : i < j then
    let m := (i + j) / 2
    let fv : Bool × Bool :=
      if err then (false, true)
      else
        match f m with
        | none => (false, true)
        | some v => (v, false)
    if fv.1 then sortSearchGo f i m fv.2 else sortSearchGo f (m + 1) j fv.2
  else (i, err)
termination_by j - i
decreasing_by
  · omega
  · omega

/-- The probe of `findEntryPosition`: read the row at position `p` and
compare `bytesToContentID(key) >= contentID`. -/
def findPositionProbe (b : IndexV1) (contentID : List Nat) (p : Nat) : Option Bool :=
  match readAt b.fileData (packHeaderSize + (b.keySize + b.valueSize) * p)
      (b.keySize + b.valueSize) with
  | none => none
  | some e => some (bytesLe contentID (bytesToContentID (e.take b.keySize)))

/-- `indexV1.findEntryPosition`. -/
def findEntryPosition (b : IndexV1) (contentID : List Nat) : Except String Nat :=
  let res := sortSearchGo (findPositionProbe b contentID) 0 b.entryCount false
  if res.2 then .error "read error" else .ok res.1

/-- The probe of `findEntryPositionExact`: compares raw key bytes. -/
def findPositionExactProbe (b : IndexV1) (idBytes : List Nat) (p : Nat) : Option Bool :=
  match readAt b.fileData (packHeaderSize + (b.keySize + b.valueSize) * p)
      (b.keySize + b.valueSize) with
  | none => none
  | some e => some (contentIDBytesGreaterOrEqual (e.take b.keySize) idBytes)

/-- `indexV1.findEntryPositionExact`. -/
def findEntryPositionExact (b : IndexV1) (idBytes : List Nat) : Except String Nat :=
  let res := sortSearchGo (findPositionExactProbe b idBytes) 0 b.entryCount false
  if res.2 then .error "read error" else .ok res.1

/-- `indexV1.entryToInfo`: length check, then the read-only view. -/
def entryToInfo (b : IndexV1) (contentID entryData : List Nat) :
    Except String IndexEntryInfoV1 :=
  if entryData.length < entryFixedHeaderLength then .error "invalid entry length"
  else .ok ⟨entryData, contentID, b⟩

/-- `IDRange`. -/
structure IDRange where
  StartID : List Nat
  EndID : List Nat

/-- The loop of `indexV1.Iterate`, from row `i`: read the row, stop once
`contentID >= r.EndID`, otherwise hand the view to the callback; a
callback error ends the iteration and is returned as-is.  The callback
threads a state `s`, standing for the mutable environment a Go callback
closes over. -/
def iterateFrom {σ : Type} (b : IndexV1) (endID : List Nat)
    (cb : σ → IndexEntryInfoV1 → Except String σ) (i : Nat) (s : σ) :
    Except String σ :=
  if _h : i < b.entryCount then
    match readAt b.fileData (packHeaderSize + (b.keySize + b.valueSize) * i)
        (b.keySize + b.valueSize) with
    | none => .error "unable to read from index"
    | some entry =>
      let contentID := bytesToContentID (entry.take b.keySize)
      if bytesLe endID contentID then .ok s
      else
        match entryToInfo b contentID (entry.drop b.keySize) with
        | .error _ => .error "invalid index data"
        | .ok info =>
          match cb s info with
          | .error e => .error e
          | .ok s' => iterateFrom b endID cb (i + 1) s'
  else .ok s
termination_by b.entryCount - i

/-- `indexV1.Iterate`. -/
def Iterate {σ : Type} (b : IndexV1) (r : IDRange)
    (cb : σ → IndexEntryInfoV1 → Except String σ) (s : σ) : Except String σ :=
  match findEntryPosition b r.StartID with
  | .error _ => .error "could not find starting position"
  | .ok startPos => iterateFrom b r.EndID cb startPos s

/-- `indexV1.findEntry`: empty-sentinel check, key-length check, exact
binary search, re-read of the row, exact key comparison. -/
def findEntry (b : IndexV1) (contentID : List Nat) :
    Except String (Option (List Nat)) :=
  let key := contentIDToBytes contentID
  if b.keySize = unknownKeySize then .ok none
  else if key.length ≠ b.keySize then .error "invalid content ID"
  else
    match findEntryPositionExact b key with
    | .error e => .error e
    | .ok pos =>
      if pos ≥ b.entryCount then .ok none
      else
        match readAt b.fileData (packHeaderSize + (b.keySize + b.valueSize) * pos)
            (b.keySize + b.valueSize) with
        | none => .error "error reading header"
        | some entryBuf =>
          if entryBuf.take key.length = key then .ok (some (entryBuf.drop key.length))
          else .ok none

/-- `indexV1.GetInfo`. -/
def GetInfo (b : IndexV1) (contentID : List Nat) :
    Except String (Option IndexEntryInfoV1) :=
  match findEntry b contentID with
  | .error e => .error e
  | .ok none => .ok none
  | .ok (some e) => (entryToInfo b contentID e).map some

/-! ## The snapshot garbage collector (`snapshot/snapshotgc/gc.go`)

The mark phase (`findInUseContentIDs`) and the content store are outside
the sweep being verified: the sweep receives the quiescent live set and
the list of contents the store iterates (including tombstones), and emits
statistics plus the sequence of store mutations (`DeleteContent`,
`UndeleteContent`, `Flush`) it performs.  Mutation failures are modelled
by environment functions giving each call's outcome. -/

/-- The fields of `content.Info` the collector reads. -/
structure GCContentInfo where
  contentID : List Nat
  packedLength : Nat
  timestampSeconds : Int
  deleted : Bool
  deriving DecidableEq, Repr

/-- Modelled from the spec: `ID.Prefix()` (not under `src/`) — a content ID
is an optional one-byte prefix followed by an even-length hex digest, so
it has a prefix iff its length is odd; `Prefix()` returns that one-byte
prefix or the empty string. -/
def idPrefix (id : List Nat) : List Nat :=
  if id.length % 2 = 1 then id.take 1 else []

/-- Modelled from the spec: `manifest.ContentPrefix` (not under `src/`) —
the single-byte prefix `"m"` marking manifest (system) contents. -/
def manifestContentPrefix : List Nat := [109]

/-- `stats.CountSum`: a (count, byte-sum) pair. -/
structure CountSum where
  count : Nat
  sum : Nat
  deriving DecidableEq, Repr

/-- `CountSum.Add`: adds one occurrence of `size` bytes, returning the new
counter together with the (newCount, newSum) readout. -/
def CountSum.add (c : CountSum) (size : Nat) : CountSum × Nat × Nat :=
  (⟨c.count + 1, c.sum + size⟩, c.count + 1, c.sum + size)

/-- A store mutation performed by the sweep. -/
inductive GCAction where
  | deleteContent (id : List Nat)
  | undeleteContent (id : List Nat)
  | flush
  deriving DecidableEq, Repr

/-- The sweep's running counters and the mutations performed so far. -/
structure SweepState where
  unused : CountSum
  inUse : CountSum
  system : CountSum
  tooRecent : CountSum
  undeleted : CountSum
  actions : List GCAction
  deriving DecidableEq, Repr

/-- All-zero counters, no actions. -/
def initialSweepState : SweepState :=
  ⟨⟨0, 0⟩, ⟨0, 0⟩, ⟨0, 0⟩, ⟨0, 0⟩, ⟨0, 0⟩, []⟩

/-- The environment of one GC run: the live set built by the mark phase,
the repository clock, `SafetyParameters.MinContentAgeSubjectToGC`, the
`gcDelete` flag, and the outcome of each store mutation (`none` =
success). -/
structure GCEnv where
  used : List (List Nat)
  now : Int
  minContentAge : Int
  gcDelete : Bool
  undeleteErr : List Nat → Option String
  deleteErr : List Nat → Option String
  flushErr : Option String

/-- The classification a content receives in the sweep callback
(`gc.go` lines 102-127): manifest prefix first, then live-set
membership, then the safety window, else unused. -/
inductive GCCategory where
  | system | inUse | tooRecent | unused
  deriving DecidableEq, Repr

/-- Which branch of the sweep callback a content takes. -/
def classify (env : GCEnv) (ci : GCContentInfo) : GCCategory :=
  if manifestContentPrefix = idPrefix ci.contentID then .system
  else if ci.contentID ∈ env.used then .inUse
  else if env.now - ci.timestampSeconds < env.minContentAge then .tooRecent
  else .unused

/-- The body of the `IterateContents` callback (`gc.go` lines 102-145):
returns the updated state and an error if a mutation failed.  Error
strings carry the wrap messages of the source. -/
def gcStep (env : GCEnv) (st : SweepState) (ci : GCContentInfo) :
    SweepState × Option String :=
  if manifestContentPrefix = idPrefix ci.contentID then
    ({ st with system := (st.system.add ci.packedLength).1 }, none)
  else if ci.contentID ∈ env.used then
    if ci.deleted then
      match env.undeleteErr ci.contentID with
      | some e => (st, some ("Could not undelete referenced content: " ++ e))
      | none =>
        let st1 := { st with
          actions := st.actions ++ [GCAction.undeleteContent ci.contentID],
          undeleted := (st.undeleted.add ci.packedLength).1 }
        ({ st1 with inUse := (st1.inUse.add ci.packedLength).1 }, none)
    else
      ({ st with inUse := (st.inUse.add ci.packedLength).1 }, none)
  else if env.now - ci.timestampSeconds < env.minContentAge then
    ({ st with tooRecent := (st.tooRecent.add ci.packedLength).1 }, none)
  else
    let added := st.unused.add ci.packedLength
    let st1 := { st with unused := added.1 }
    let cnt := added.2.1
    if env.gcDelete then
      match env.deleteErr ci.contentID with
      | some e => (st1, some ("error deleting content: " ++ e))
      | none =>
        let st2 := { st1 with actions := st1.actions ++ [GCAction.deleteContent ci.contentID] }
        if cnt % 100000 = 0 then
          match env.flushErr with
          | some e => (st2, some ("flush error: " ++ e))
          | none => ({ st2 with actions := st2.actions ++ [GCAction.flush] }, none)
        else (st2, none)
    else (st1, none)

/-- `IterateContents` driving the callback over every content (the store
yields tombstones too, `IncludeDeleted: true`); the first callback error
stops the iteration and is returned. -/
def gcSweep (env : GCEnv) : List GCContentInfo → SweepState → SweepState × Option String
  | [], st => (st, none)
  | ci :: rest, st =>
    match gcStep env st ci with
    | (st', none) => gcSweep env rest st'
    | (st', some e) => (st', some e)

/-- `snapshotgc.Stats` (the ten populated fields). -/
structure Stats where
  UnusedCount : Nat
  UnusedBytes : Nat
  InUseCount : Nat
  InUseBytes : Nat
  SystemCount : Nat
  SystemBytes : Nat
  TooRecentCount : Nat
  TooRecentBytes : Nat
  UndeletedCount : Nat
  UndeletedBytes : Nat
  deriving DecidableEq, Repr

/-- `gc.go` lines 147-151: snapshot every counter into the result. -/
def snapshotStats (st : SweepState) : Stats :=
  ⟨st.unused.count, st.unused.sum, st.inUse.count, st.inUse.sum,
   st.system.count, st.system.sum, st.tooRecent.count, st.tooRecent.sum,
   st.undeleted.count, st.undeleted.sum⟩

/-- What one GC run returns: the populated stats, the mutations performed
(in order), and the terminal error if any. -/
structure GCResult where
  stats : Stats
  actions : List GCAction
  err : Option String
  deriving Repr

/-- The delete-flag diagnostic of `gc.go` line 158 (the source text names
the `--delete` flag). -/
def notDeletingMsg : String := "Not deleting because delete flag was not set"

/-- `runInternal` after the mark phase (`gc.go` lines 98-162): sweep all
contents, snapshot the statistics (before any error return), then either
return the iteration error, the dry-run diagnostic, or perform the final
`Flush`. -/
def runInternal (env : GCEnv) (contents : List GCContentInfo) : GCResult :=
  let swept := gcSweep env contents initialSweepState
  let stats := snapshotStats swept.1
  match swept.2 with
  | some e => ⟨stats, swept.1.actions, some ("error iterating contents: " ++ e)⟩
  | none =>
    if swept.1.unused.count > 0 ∧ env.gcDelete = false then
      ⟨stats, swept.1.actions, some notDeletingMsg⟩
    else
      ⟨stats, swept.1.actions ++ [GCAction.flush],
        env.flushErr.map (fun e => "flush error: " ++ e)⟩

/-- Modelled from the spec (§4.D, not under `src/`): the store's reaction
to the collector's mutations — `DeleteContent` marks the entry deleted,
`UndeleteContent` clears the tombstone, `Flush` publishes (no effect on
the logical entries). -/
def applyAction (store : List GCContentInfo) : GCAction → List GCContentInfo
  | .deleteContent id =>
    store.map fun c => if c.contentID = id then { c with deleted := true } else c
  | .undeleteContent id =>
    store.map fun c => if c.contentID = id then { c with deleted := false } else c
  | .flush => store

/-- The store after a run's mutations. -/
def applyActions (store : List GCContentInfo) (acts : List GCAction) : List GCContentInfo :=
  acts.foldl applyAction store

/-- No store mutation fails in the environment. -/
def NoErrors (env : GCEnv) : Prop :=
  (∀ id, env.undeleteErr id = none) ∧ (∀ id, env.deleteErr id = none) ∧
    env.flushErr = none

/-- The contents of `l` classified into `cat`. -/
def catFilter (env : GCEnv) (cat : GCCategory) (l : List GCContentInfo) :
    List GCContentInfo :=
  l.filter fun ci => decide (classify env ci = cat)

/-- The contents of `l` that get undeleted: referenced and tombstoned
(and not manifest-prefixed). -/
def undelFilter (env : GCEnv) (l : List GCContentInfo) : List GCContentInfo :=
  l.filter fun ci => decide (classify env ci = GCCategory.inUse) && ci.deleted

/-- Total packed bytes of a content list. -/
def sumLen (l : List GCContentInfo) : Nat := (l.map GCContentInfo.packedLength).sum

/-! ### Classification lemmas -/

theorem classify_system_iff {env : GCEnv} {ci : GCContentInfo} :
    classify env ci = .system ↔ manifestContentPrefix = idPrefix ci.contentID := by
  unfold classify
  split_ifs <;> simp_all

theorem classify_inUse_iff {env : GCEnv} {ci : GCContentInfo} :
    classify env ci = .inUse ↔
      ¬ manifestContentPrefix = idPrefix ci.contentID ∧ ci.contentID ∈ env.used := by
  unfold classify
  split_ifs <;> simp_all

theorem classify_tooRecent_iff {env : GCEnv} {ci : GCContentInfo} :
    classify env ci = .tooRecent ↔
      ¬ manifestContentPrefix = idPrefix ci.contentID ∧ ci.contentID ∉ env.used ∧
        env.now - ci.timestampSeconds < env.minContentAge := by
  unfold classify
  split_ifs <;> simp_all

theorem classify_unused_iff {env : GCEnv} {ci : GCContentInfo} :
    classify env ci = .unused ↔
      ¬ manifestContentPrefix = idPrefix ci.contentID ∧ ci.contentID ∉ env.used ∧
        ¬ env.now - ci.timestampSeconds < env.minContentAge := by
  unfold classify
  split_ifs <;> simp_all

/-- `classify` does not read the `gcDelete` flag. -/
theorem classify_gcDelete_indep (env : GCEnv) (b : Bool) (ci : GCContentInfo) :
    classify { env with gcDelete := b } ci = classify env ci := rfl

/-! ### Per-branch step equations -/

theorem gcStep_system_eq {env : GCEnv} {ci : GCContentInfo} (st : SweepState)
    (h : classify env ci = .system) :
    gcStep env st ci = ({ st with system := (st.system.add ci.packedLength).1 }, none) := by
  rw [classify_system_iff] at h
  simp [gcStep, h]

theorem gcStep_inUse_del_eq {env : GCEnv} {ci : GCContentInfo} (st : SweepState)
    (h : classify env ci = .inUse) (hd : ci.deleted = true)
    (hund : env.undeleteErr ci.contentID = none) :
    gcStep env st ci =
      ({ st with
          actions := st.actions ++ [GCAction.undeleteContent ci.contentID],
          undeleted := (st.undeleted.add ci.packedLength).1,
          inUse := (st.inUse.add ci.packedLength).1 }, none) := by
  rw [classify_inUse_iff] at h
  simp [gcStep, h.1, h.2, hd, hund]

theorem gcStep_inUse_live_eq {env : GCEnv} {ci : GCContentInfo} (st : SweepState)
    (h : classify env ci = .inUse) (hd : ci.deleted = false) :
    gcStep env st ci = ({ st with inUse := (st.inUse.add ci.packedLength).1 }, none) := by
  rw [classify_inUse_iff] at h
  simp [gcStep, h.1, h.2, hd]

theorem gcStep_tooRecent_eq {env : GCEnv} {ci : GCContentInfo} (st : SweepState)
    (h : classify env ci = .tooRecent) :
    gcStep env st ci = ({ st with tooRecent := (st.tooRecent.add ci.packedLength).1 }, none) := by
  rw [classify_tooRecent_iff] at h
  simp [gcStep, h.1, h.2.1, h.2.2]

theorem gcStep_unused_nodelete_eq {env : GCEnv} {ci : GCContentInfo} (st : SweepState)
    (h : classify env ci = .unused) (hgc : env.gcDelete = false) :
    gcStep env st ci = ({ st with unused := (st.unused.add ci.packedLength).1 }, none) := by
  rw [classify_unused_iff] at h
  simp [gcStep, h.1, h.2.1, h.2.2, hgc]

theorem gcStep_unused_delete_eq {env : GCEnv} {ci : GCContentInfo} (st : SweepState)
    (h : classify env ci = .unused) (hgc : env.gcDelete = true)
    (hdel : env.deleteErr ci.contentID = none) (hfl : env.flushErr = none) :
    gcStep env st ci =
      ({ st with
          unused := (st.unused.add ci.packedLength).1,
          actions := st.actions ++ [GCAction.deleteContent ci.contentID] ++
            (if (st.unused.count + 1) % 100000 = 0 then [GCAction.flush] else []) }, none) := by
  rw [classify_unused_iff] at h
  by_cases hcnt : (st.unused.count + 1) % 100000 = 0 <;>
    simp [gcStep, h.1, h.2.1, h.2.2, hgc, hdel, hfl, hcnt, CountSum.add]

/-! ### The sweep's mutation sequence -/

/-- The mutations an error-free sweep performs, as a function of the
classification of each content and the running unused count
(`startCount` = value of the unused counter when the sweep段 starts). -/
def sweepActions (env : GCEnv) (startCount : Nat) : List GCContentInfo → List GCAction
  | [] => []
  | ci :: rest =>
    match classify env ci with
    | .system => sweepActions env startCount rest
    | .inUse =>
      (if ci.deleted then [GCAction.undeleteContent ci.contentID] else []) ++
        sweepActions env startCount rest
    | .tooRecent => sweepActions env startCount rest
    | .unused =>
      (if env.gcDelete then
        GCAction.deleteContent ci.contentID ::
          (if (startCount + 1) % 100000 = 0 then [GCAction.flush] else [])
       else []) ++ sweepActions env (startCount + 1) rest

/-- Counter after counting every element of `l`. -/
def addCS (c : CountSum) (l : List GCContentInfo) : CountSum :=
  ⟨c.count + l.length, c.sum + sumLen l⟩

theorem addCS_nil (c : CountSum) : addCS c [] = c := by
  simp [addCS, sumLen]

theorem addCS_cons (c : CountSum) (ci : GCContentInfo) (l : List GCContentInfo) :
    addCS c (ci :: l) = addCS (c.add ci.packedLength).1 l := by
  simp [addCS, sumLen, CountSum.add]
  omega

theorem gcSweep_cons_none {env : GCEnv} {ci : GCContentInfo} {rest : List GCContentInfo}
    {st st' : SweepState} (h : gcStep env st ci = (st', none)) :
    gcSweep env (ci :: rest) st = gcSweep env rest st' := by
  simp [gcSweep, h]

theorem gcSweep_cons_some {env : GCEnv} {ci : GCContentInfo} {rest : List GCContentInfo}
    {st st' : SweepState} {e : String} (h : gcStep env st ci = (st', some e)) :
    gcSweep env (ci :: rest) st = (st', some e) := by
  simp [gcSweep, h]

/-- Master characterization of an error-free sweep: every counter ends at
its classification count, and the mutation sequence is `sweepActions`. -/
theorem gcSweep_normal (env : GCEnv) (hNo : NoErrors env) :
    ∀ (l : List GCContentInfo) (st : SweepState),
      gcSweep env l st =
        ({ unused := addCS st.unused (catFilter env .unused l),
           inUse := addCS st.inUse (catFilter env .inUse l),
           system := addCS st.system (catFilter env .system l),
           tooRecent := addCS st.tooRecent (catFilter env .tooRecent l),
           undeleted := addCS st.undeleted (undelFilter env l),
           actions := st.actions ++ sweepActions env st.unused.count l }, none) := by
  obtain ⟨hund, hdel, hfl⟩ := hNo
  intro l
  induction l with
  | nil =>
    intro st
    simp [gcSweep, catFilter, undelFilter, addCS_nil, sweepActions]
  | cons ci rest ih =>
    intro st
    have hfilter : ∀ cat, catFilter env cat (ci :: rest) =
        (if classify env ci = cat then [ci] else []) ++ catFilter env cat rest := by
      intro cat
      by_cases h : classify env ci = cat <;> simp [catFilter, List.filter_cons, h]
    have hundel : undelFilter env (ci :: rest) =
        (if classify env ci = GCCategory.inUse ∧ ci.deleted = true then [ci] else []) ++
          undelFilter env rest := by
      by_cases h : classify env ci = GCCategory.inUse ∧ ci.deleted = true
      · simp [undelFilter, List.filter_cons, h.1, h.2]
      · cases hd : ci.deleted with
        | false =>
          simp only [undelFilter, List.filter_cons]
          simp [hd]
        | true =>
          have hni : ¬ classify env ci = GCCategory.inUse := fun hc => h ⟨hc, hd⟩
          simp only [undelFilter, List.filter_cons]
          simp [hni]
    cases hcat : classify env ci with
    | system =>
      rw [gcSweep_cons_none (gcStep_system_eq st hcat), ih]
      simp [hfilter, hundel, hcat, sweepActions, addCS_cons]
    | inUse =>
      cases hd : ci.deleted with
      | false =>
        rw [gcSweep_cons_none (gcStep_inUse_live_eq st hcat hd), ih]
        simp [hfilter, hundel, hcat, hd, sweepActions, addCS_cons]
      | true =>
        rw [gcSweep_cons_none (gcStep_inUse_del_eq st hcat hd (hund _)), ih]
        simp [hfilter, hundel, hcat, hd, sweepActions, addCS_cons]
    | tooRecent =>
      rw [gcSweep_cons_none (gcStep_tooRecent_eq st hcat), ih]
      simp [hfilter, hundel, hcat, sweepActions, addCS_cons]
    | unused =>
      cases hgc : env.gcDelete with
      | false =>
        rw [gcSweep_cons_none (gcStep_unused_nodelete_eq st hcat hgc), ih]
        simp [hfilter, hundel, hcat, hgc, sweepActions, addCS_cons, CountSum.add]
      | true =>
        rw [gcSweep_cons_none (gcStep_unused_delete_eq st hcat hgc (hdel _) hfl), ih]
        simp [hfilter, hundel, hcat, hgc, sweepActions, addCS_cons, CountSum.add]

/-! ### Membership in the mutation sequence -/

theorem sweepActions_mem_delete (env : GCEnv) (id : List Nat) :
    ∀ (l : List GCContentInfo) (sc : Nat),
      (GCAction.deleteContent id ∈ sweepActions env sc l ↔
        env.gcDelete = true ∧ ∃ ci ∈ l, ci.contentID = id ∧ classify env ci = .unused) := by
  intro l
  induction l with
  | nil => intro sc; simp [sweepActions]
  | cons ci rest ih =>
    intro sc
    cases hcat : classify env ci with
    | system => simp [sweepActions, hcat, ih]
    | inUse =>
      cases hd : ci.deleted <;>
        simp [sweepActions, hcat, hd, ih, List.mem_append]
    | tooRecent => simp [sweepActions, hcat, ih]
    | unused =>
      cases hgc : env.gcDelete with
      | false => simp [sweepActions, hcat, hgc, ih]
      | true =>
        constructor
        · intro hmem
          by_cases hcnt : (sc + 1) % 100000 = 0 <;>
            simp [sweepActions, hcat, hgc, hcnt] at hmem <;>
            rcases hmem with h | h
          · exact ⟨rfl, ci, by simp, h.symm, hcat⟩
          · obtain ⟨_, ci', h1, h2, h3⟩ := (ih _).1 h
            exact ⟨rfl, ci', by simp [h1], h2, h3⟩
          · exact ⟨rfl, ci, by simp, h.symm, hcat⟩
          · obtain ⟨_, ci', h1, h2, h3⟩ := (ih _).1 h
            exact ⟨rfl, ci', by simp [h1], h2, h3⟩
        · rintro ⟨-, ci', hmem, hid, hcl⟩
          by_cases hcnt : (sc + 1) % 100000 = 0 <;>
            simp [sweepActions, hcat, hgc, hcnt] <;>
            rcases List.mem_cons.1 hmem with h | h
          · subst h; exact Or.inl hid.symm
          · exact Or.inr ((ih _).2 ⟨hgc, ci', h, hid, hcl⟩)
          · subst h; exact Or.inl hid.symm
          · exact Or.inr ((ih _).2 ⟨hgc, ci', h, hid, hcl⟩)

theorem sweepActions_mem_undelete (env : GCEnv) (id : List Nat) :
    ∀ (l : List GCContentInfo) (sc : Nat),
      (GCAction.undeleteContent id ∈ sweepActions env sc l ↔
        ∃ ci ∈ l, ci.contentID = id ∧ classify env ci = .inUse ∧ ci.deleted = true) := by
  intro l
  induction l with
  | nil => intro sc; simp [sweepActions]
  | cons ci rest ih =>
    intro sc
    cases hcat : classify env ci with
    | system => simp [sweepActions, hcat, ih]
    | inUse =>
      cases hd : ci.deleted with
      | false => simp [sweepActions, hcat, hd, ih]
      | true =>
        constructor
        · intro hmem
          simp [sweepActions, hcat, hd] at hmem
          rcases hmem with h | h
          · exact ⟨ci, by simp, h.symm, hcat, hd⟩
          · obtain ⟨ci', h1, h2, h3⟩ := (ih _).1 h
            exact ⟨ci', by simp [h1], h2, h3⟩
        · rintro ⟨ci', hmem, hid, hcl, hdel⟩
          simp [sweepActions, hcat, hd]
          rcases List.mem_cons.1 hmem with h | h
          · subst h; exact Or.inl hid.symm
          · exact Or.inr ((ih _).2 ⟨ci', h, hid, hcl, hdel⟩)
    | tooRecent => simp [sweepActions, hcat, ih]
    | unused =>
      cases hgc : env.gcDelete with
      | false => simp [sweepActions, hcat, hgc, ih]
      | true =>
        by_cases hcnt : (sc + 1) % 100000 = 0 <;>
          simp [sweepActions, hcat, hgc, hcnt, ih]

theorem sweepActions_mem_flush (env : GCEnv) :
    ∀ (l : List GCContentInfo) (sc : Nat),
      GCAction.flush ∈ sweepActions env sc l → env.gcDelete = true := by
  intro l
  induction l with
  | nil => intro sc h; simp [sweepActions] at h
  | cons ci rest ih =>
    intro sc h
    cases hcat : classify env ci with
    | system => rw [sweepActions, hcat] at h; exact ih _ h
    | inUse =>
      rw [sweepActions, hcat] at h
      rcases List.mem_append.1 h with h | h
      · cases hd : ci.deleted <;> rw [hd] at h <;> simp at h
      · exact ih _ h
    | tooRecent => rw [sweepActions, hcat] at h; exact ih _ h
    | unused =>
      cases hgc : env.gcDelete with
      | false =>
        rw [sweepActions, hcat, hgc] at h
        simp at h
        have h2 := ih _ h
        rw [hgc] at h2
        exact h2
      | true => rfl

/-- Number of periodic checkpoint flushes an error-free deleting sweep
emits: one for each multiple of 100000 the unused counter crosses. -/
theorem sweepActions_flush_count (env : GCEnv) (hgc : env.gcDelete = true) :
    ∀ (l : List GCContentInfo) (sc : Nat),
      ((sweepActions env sc l).filter (fun a => decide (a = GCAction.flush))).length =
        (sc + (catFilter env .unused l).length) / 100000 - sc / 100000 := by
  intro l
  induction l with
  | nil => intro sc; simp [sweepActions, catFilter]
  | cons ci rest ih =>
    intro sc
    have hfilter : ∀ cat, catFilter env cat (ci :: rest) =
        (if classify env ci = cat then [ci] else []) ++ catFilter env cat rest := by
      intro cat
      by_cases h : classify env ci = cat <;> simp [catFilter, List.filter_cons, h]
    cases hcat : classify env ci with
    | system => simp [sweepActions, hcat, ih, hfilter]
    | inUse =>
      cases hd : ci.deleted <;>
        simp [sweepActions, hcat, hd, ih, hfilter, List.filter_append]
    | tooRecent => simp [sweepActions, hcat, ih, hfilter]
    | unused =>
      by_cases hcnt : (sc + 1) % 100000 = 0 <;>
        · simp [sweepActions, hcat, hgc, hcnt, ih, hfilter, List.filter_append]
          omega

/-! ### Error-robust action-source lemma (no error hypotheses) -/

/-- Whatever the mutation outcomes, one callback step only appends to the
action log: nothing, one undelete of an in-use content, or a delete
(possibly followed by a checkpoint flush) of an unused content. -/
theorem gcStep_actions_append (env : GCEnv) (st : SweepState) (ci : GCContentInfo) :
    ∃ delta, (gcStep env st ci).1.actions = st.actions ++ delta ∧
      ∀ a ∈ delta,
        (a = GCAction.undeleteContent ci.contentID ∧ classify env ci = .inUse) ∨
        (a = GCAction.deleteContent ci.contentID ∧ classify env ci = .unused ∧
          env.gcDelete = true) ∨
        a = GCAction.flush := by
  cases hcat : classify env ci with
  | system =>
    have h := classify_system_iff.1 hcat
    exact ⟨[], by simp [gcStep, h], by simp⟩
  | inUse =>
    have h := classify_inUse_iff.1 hcat
    cases hd : ci.deleted with
    | false => exact ⟨[], by simp [gcStep, h.1, h.2, hd], by simp⟩
    | true =>
      cases hund : env.undeleteErr ci.contentID with
      | none =>
        refine ⟨[GCAction.undeleteContent ci.contentID],
          by simp [gcStep, h.1, h.2, hd, hund], ?_⟩
        intro a ha
        simp at ha
        exact Or.inl ⟨ha, rfl⟩
      | some e => exact ⟨[], by simp [gcStep, h.1, h.2, hd, hund], by simp⟩
  | tooRecent =>
    have h := classify_tooRecent_iff.1 hcat
    exact ⟨[], by simp [gcStep, h.1, h.2.1, h.2.2], by simp⟩
  | unused =>
    have h := classify_unused_iff.1 hcat
    cases hgc : env.gcDelete with
    | false => exact ⟨[], by simp [gcStep, h.1, h.2.1, h.2.2, hgc], by simp⟩
    | true =>
      cases hdel : env.deleteErr ci.contentID with
      | some e => exact ⟨[], by simp [gcStep, h.1, h.2.1, h.2.2, hgc, hdel], by simp⟩
      | none =>
        by_cases hcnt : (st.unused.count + 1) % 100000 = 0
        · cases hfl : env.flushErr with
          | some e =>
            refine ⟨[GCAction.deleteContent ci.contentID],
              by simp [gcStep, h.1, h.2.1, h.2.2, hgc, hdel, hcnt, hfl, CountSum.add], ?_⟩
            intro a ha
            simp at ha
            exact Or.inr (Or.inl ⟨ha, rfl, rfl⟩)
          | none =>
            refine ⟨[GCAction.deleteContent ci.contentID, GCAction.flush],
              by simp [gcStep, h.1, h.2.1, h.2.2, hgc, hdel, hcnt, hfl, CountSum.add], ?_⟩
            intro a ha
            rcases List.mem_cons.1 ha with ha | ha
            · exact Or.inr (Or.inl ⟨ha, rfl, rfl⟩)
            · simp at ha
              exact Or.inr (Or.inr ha)
        · refine ⟨[GCAction.deleteContent ci.contentID],
            by simp [gcStep, h.1, h.2.1, h.2.2, hgc, hdel, hcnt, CountSum.add], ?_⟩
          intro a ha
          simp at ha
          exact Or.inr (Or.inl ⟨ha, rfl, rfl⟩)

/-- Every delete recorded by a sweep — even one that aborts on an error —
targets a content of the list classified unused, and every undelete one
classified in-use. -/
theorem gcSweep_action_source (env : GCEnv) (id : List Nat) :
    ∀ (l : List GCContentInfo) (st : SweepState),
      (GCAction.deleteContent id ∈ (gcSweep env l st).1.actions →
        GCAction.deleteContent id ∈ st.actions ∨
          ∃ ci ∈ l, ci.contentID = id ∧ classify env ci = .unused) ∧
      (GCAction.undeleteContent id ∈ (gcSweep env l st).1.actions →
        GCAction.undeleteContent id ∈ st.actions ∨
          ∃ ci ∈ l, ci.contentID = id ∧ classify env ci = .inUse) := by
  intro l
  induction l with
  | nil => intro st; constructor <;> (intro h; exact Or.inl h)
  | cons ci rest ih =>
    intro st
    obtain ⟨delta, hacts, hdelta⟩ := gcStep_actions_append env st ci
    have hfromDelta :
        (GCAction.deleteContent id ∈ st.actions ++ delta →
          GCAction.deleteContent id ∈ st.actions ∨
            ∃ c ∈ ci :: rest, c.contentID = id ∧ classify env c = .unused) ∧
        (GCAction.undeleteContent id ∈ st.actions ++ delta →
          GCAction.undeleteContent id ∈ st.actions ∨
            ∃ c ∈ ci :: rest, c.contentID = id ∧ classify env c = .inUse) := by
      constructor
      · intro hin
        rcases List.mem_append.1 hin with hin | hin
        · exact Or.inl hin
        · rcases hdelta _ hin with ⟨he, _⟩ | ⟨he, hcl, _⟩ | he
          · simp at he
          · have hid : ci.contentID = id := by
              have := he
              simp [GCAction.deleteContent.injEq] at this
              exact this.symm
            exact Or.inr ⟨ci, by simp, hid, hcl⟩
          · simp at he
      · intro hin
        rcases List.mem_append.1 hin with hin | hin
        · exact Or.inl hin
        · rcases hdelta _ hin with ⟨he, hcl⟩ | ⟨he, _, _⟩ | he
          · have hid : ci.contentID = id := by
              have := he
              simp [GCAction.undeleteContent.injEq] at this
              exact this.symm
            exact Or.inr ⟨ci, by simp, hid, hcl⟩
          · simp at he
          · simp at he
    rcases hres : gcStep env st ci with ⟨st', err⟩
    rw [hres] at hacts
    simp only at hacts
    cases err with
    | none =>
      rw [gcSweep_cons_none hres]
      constructor
      · intro hmem
        rcases (ih st').1 hmem with hin | ⟨ci', h1, h2, h3⟩
        · rw [hacts] at hin
          exact hfromDelta.1 hin
        · exact Or.inr ⟨ci', by simp [h1], h2, h3⟩
      · intro hmem
        rcases (ih st').2 hmem with hin | ⟨ci', h1, h2, h3⟩
        · rw [hacts] at hin
          exact hfromDelta.2 hin
        · exact Or.inr ⟨ci', by simp [h1], h2, h3⟩
    | some e =>
      rw [gcSweep_cons_some hres]
      constructor
      · intro hmem
        simp only at hmem
        rw [hacts] at hmem
        exact hfromDelta.1 hmem
      · intro hmem
        simp only at hmem
        rw [hacts] at hmem
        exact hfromDelta.2 hmem

/-! ### Error propagation: a failing undelete aborts the sweep -/

/-- If the only failing mutation is `UndeleteContent` of `cid`, and the
list contains a tombstoned in-use content with that ID, the sweep stops
with the undelete error. -/
theorem gcSweep_undelete_error (env : GCEnv) (e : String) (cid : List Nat)
    (hund : ∀ id, env.undeleteErr id = if id = cid then some e else none)
    (hdel : ∀ id, env.deleteErr id = none) (hfl : env.flushErr = none) :
    ∀ (l : List GCContentInfo) (st : SweepState),
      (∃ ci ∈ l, ci.contentID = cid ∧ ci.deleted = true ∧ classify env ci = .inUse) →
      (gcSweep env l st).2 = some ("Could not undelete referenced content: " ++ e) := by
  intro l
  induction l with
  | nil => rintro st ⟨ci, hmem, -⟩; simp at hmem
  | cons ci rest ih =>
    rintro st ⟨ci', hmem, hid, hcd, hcl⟩
    by_cases htrig : ci.contentID = cid ∧ ci.deleted = true ∧ classify env ci = .inUse
    · obtain ⟨hid0, hcd0, hcl0⟩ := htrig
      have h := classify_inUse_iff.1 hcl0
      have hstep : gcStep env st ci =
          (st, some ("Could not undelete referenced content: " ++ e)) := by
        have he : env.undeleteErr ci.contentID = some e := by rw [hund, if_pos hid0]
        simp [gcStep, h.1, h.2, hcd0, he]
      rw [gcSweep_cons_some hstep]
    · have hstepok : ∃ st', gcStep env st ci = (st', none) := by
        cases hcat : classify env ci with
        | system => exact ⟨_, gcStep_system_eq st hcat⟩
        | inUse =>
          cases hd : ci.deleted with
          | false => exact ⟨_, gcStep_inUse_live_eq st hcat hd⟩
          | true =>
            have hne : ¬ ci.contentID = cid := fun hc => htrig ⟨hc, hd, hcat⟩
            have he : env.undeleteErr ci.contentID = none := by rw [hund, if_neg hne]
            exact ⟨_, gcStep_inUse_del_eq st hcat hd he⟩
        | tooRecent => exact ⟨_, gcStep_tooRecent_eq st hcat⟩
        | unused =>
          cases hgc : env.gcDelete with
          | false => exact ⟨_, gcStep_unused_nodelete_eq st hcat hgc⟩
          | true => exact ⟨_, gcStep_unused_delete_eq st hcat hgc (hdel _) hfl⟩
      obtain ⟨st', hstep⟩ := hstepok
      rw [gcSweep_cons_none hstep]
      have hmem' : ci' ∈ rest := by
        rcases List.mem_cons.1 hmem with hc | hc
        · exact absurd (hc ▸ ⟨hid, hcd, hcl⟩) htrig
        · exact hc
      exact ih st' ⟨ci', hmem', hid, hcd, hcl⟩

/-! ### The store after the run's mutations -/

/-- Actions never add or remove entries or change their IDs. -/
theorem applyActions_ids (acts : List GCAction) :
    ∀ store : List GCContentInfo,
      (applyActions store acts).map GCContentInfo.contentID =
        store.map GCContentInfo.contentID := by
  induction acts with
  | nil => intro store; rfl
  | cons a rest ih =>
    intro store
    have hone : (applyAction store a).map GCContentInfo.contentID =
        store.map GCContentInfo.contentID := by
      cases a with
      | deleteContent tid =>
        simp only [applyAction, List.map_map]
        apply List.map_congr_left
        intro c _
        by_cases hc : c.contentID = tid <;> simp [hc]
      | undeleteContent tid =>
        simp only [applyAction, List.map_map]
        apply List.map_congr_left
        intro c _
        by_cases hc : c.contentID = tid <;> simp [hc]
      | flush => rfl
    rw [applyActions, List.foldl_cons, ← applyActions, ih, hone]

/-- An entry whose ID no action targets passes through unchanged. -/
theorem applyActions_untouched (id : List Nat) (acts : List GCAction)
    (hdel : GCAction.deleteContent id ∉ acts)
    (hundel : GCAction.undeleteContent id ∉ acts) :
    ∀ (store : List GCContentInfo) (d : GCContentInfo),
      d ∈ store → d.contentID = id → d ∈ applyActions store acts := by
  induction acts with
  | nil => intro store d hd _; exact hd
  | cons a rest ih =>
    intro store d hd hid
    have hdel' : GCAction.deleteContent id ∉ rest := fun h => hdel (List.mem_cons_of_mem _ h)
    have hund' : GCAction.undeleteContent id ∉ rest := fun h => hundel (List.mem_cons_of_mem _ h)
    rw [applyActions, List.foldl_cons, ← applyActions]
    apply ih hdel' hund' _ d _ hid
    cases a with
    | deleteContent tid =>
      have hne : tid ≠ id := fun hc => hdel (by simp [hc])
      have hcid : ¬ d.contentID = tid := by rw [hid]; exact fun hc => hne hc.symm
      simp only [applyAction]
      rw [List.mem_map]
      exact ⟨d, hd, by simp [hcid]⟩
    | undeleteContent tid =>
      have hne : tid ≠ id := fun hc => hundel (by simp [hc])
      have hcid : ¬ d.contentID = tid := by rw [hid]; exact fun hc => hne hc.symm
      simp only [applyAction]
      rw [List.mem_map]
      exact ⟨d, hd, by simp [hcid]⟩
    | flush => exact hd

/-- Once no delete of `id` remains, entries with that ID stay untombstoned. -/
theorem applyActions_stays_clear (id : List Nat) :
    ∀ (acts : List GCAction) (store : List GCContentInfo),
      GCAction.deleteContent id ∉ acts →
      (∀ d ∈ store, d.contentID = id → d.deleted = false) →
      ∀ d ∈ applyActions store acts, d.contentID = id → d.deleted = false := by
  intro acts
  induction acts with
  | nil => intro store _ hst d hd hid; exact hst d hd hid
  | cons a rest ih =>
    intro store hdel hst
    have hdel' : GCAction.deleteContent id ∉ rest := fun h => hdel (List.mem_cons_of_mem _ h)
    rw [applyActions, List.foldl_cons, ← applyActions]
    apply ih _ hdel'
    intro d hd hid
    cases a with
    | deleteContent tid =>
      have hne : tid ≠ id := fun hc => hdel (by simp [hc])
      simp only [applyAction] at hd
      obtain ⟨d0, hd0, hmap⟩ := List.mem_map.1 hd
      by_cases hc : d0.contentID = tid
      · rw [← hmap] at hid
        simp [hc] at hid
        exact absurd hid hne
      · rw [← hmap] at hid ⊢
        simp [hc] at hid ⊢
        exact hst d0 hd0 hid
    | undeleteContent tid =>
      simp only [applyAction] at hd
      obtain ⟨d0, hd0, hmap⟩ := List.mem_map.1 hd
      by_cases hc : d0.contentID = tid
      · rw [← hmap]; simp [hc]
      · rw [← hmap] at hid ⊢
        simp [hc] at hid ⊢
        exact hst d0 hd0 hid
    | flush => exact hst d hd hid

/-- After an undelete of `id` with no delete of `id` anywhere in the
sequence, every entry with that ID ends with its tombstone cleared. -/
theorem applyActions_undeleted (id : List Nat) :
    ∀ (acts : List GCAction) (store : List GCContentInfo),
      GCAction.undeleteContent id ∈ acts →
      GCAction.deleteContent id ∉ acts →
      ∀ d ∈ applyActions store acts, d.contentID = id → d.deleted = false := by
  intro acts
  induction acts with
  | nil => intro store h; simp at h
  | cons a rest ih =>
    intro store hmem hdel
    have hdel' : GCAction.deleteContent id ∉ rest := fun h => hdel (List.mem_cons_of_mem _ h)
    rw [applyActions, List.foldl_cons, ← applyActions]
    by_cases ha : a = GCAction.undeleteContent id
    · subst ha
      apply applyActions_stays_clear id rest _ hdel'
      intro d hd hid
      simp only [applyAction] at hd
      obtain ⟨d0, hd0, hmap⟩ := List.mem_map.1 hd
      by_cases hc : d0.contentID = id
      · rw [← hmap]; simp [hc]
      · rw [← hmap] at hid
        simp [hc] at hid
    · have hmem' : GCAction.undeleteContent id ∈ rest := by
        rcases List.mem_cons.1 hmem with hc | hc
        · exact absurd hc.symm ha
        · exact hc
      exact ih _ hmem' hdel'

/-! ### The whole run, error-free -/

/-- `runInternal` under error-free mutations: statistics are exactly the
classification counts, the mutation sequence is the sweep's (with the
final `Flush` unless the dry-run diagnostic fires first), and the error
is the dry-run diagnostic or nothing. -/
theorem runInternal_normal (env : GCEnv) (contents : List GCContentInfo)
    (hNo : NoErrors env) :
    runInternal env contents =
      ⟨⟨(catFilter env .unused contents).length, sumLen (catFilter env .unused contents),
        (catFilter env .inUse contents).length, sumLen (catFilter env .inUse contents),
        (catFilter env .system contents).length, sumLen (catFilter env .system contents),
        (catFilter env .tooRecent contents).length, sumLen (catFilter env .tooRecent contents),
        (undelFilter env contents).length, sumLen (undelFilter env contents)⟩,
       if 0 < (catFilter env .unused contents).length ∧ env.gcDelete = false then
         sweepActions env 0 contents
       else sweepActions env 0 contents ++ [GCAction.flush],
       if 0 < (catFilter env .unused contents).length ∧ env.gcDelete = false then
         some notDeletingMsg
       else none⟩ := by
  have hs := gcSweep_normal env hNo contents initialSweepState
  obtain ⟨-, -, hfl⟩ := hNo
  simp only [runInternal]
  rw [hs]
  by_cases hcond : 0 < (catFilter env .unused contents).length ∧ env.gcDelete = false <;>
    simp [snapshotStats, addCS, initialSweepState, sumLen, hcond, hfl]

/-- C2 helper: contents of a nodup-ID list with the same ID are equal. -/
theorem same_id_eq {contents : List GCContentInfo}
    (hnodup : (contents.map GCContentInfo.contentID).Nodup)
    {a b : GCContentInfo} (ha : a ∈ contents) (hb : b ∈ contents)
    (hid : a.contentID = b.contentID) : a = b :=
  List.inj_on_of_nodup_map hnodup ha hb hid

/-- **C2.** An unreferenced, non-manifest content inside the safety window
is never deleted (no `DeleteContent` — it survives the run unchanged) and
is accounted under `tooRecent`, even with `doDelete` set; once its age
reaches the window and `doDelete` is set, `DeleteContent` is called on it
and it is accounted under `unused`. -/
theorem c2_safety_window (env : GCEnv) (contents : List GCContentInfo)
    (c : GCContentInfo) (hNo : NoErrors env) (hc : c ∈ contents)
    (hnodup : (contents.map GCContentInfo.contentID).Nodup)
    (hpre : idPrefix c.contentID ≠ manifestContentPrefix)
    (href : c.contentID ∉ env.used) :
    (env.now - c.timestampSeconds < env.minContentAge →
      classify env c = .tooRecent ∧
      GCAction.deleteContent c.contentID ∉ (runInternal env contents).actions ∧
      c ∈ applyActions contents (runInternal env contents).actions ∧
      c ∈ catFilter env .tooRecent contents ∧
      (runInternal env contents).stats.TooRecentCount =
        (catFilter env .tooRecent contents).length) ∧
    (env.minContentAge ≤ env.now - c.timestampSeconds → env.gcDelete = true →
      classify env c = .unused ∧
      GCAction.deleteContent c.contentID ∈ (runInternal env contents).actions ∧
      c ∈ catFilter env .unused contents ∧
      (runInternal env contents).stats.UnusedCount =
        (catFilter env .unused contents).length) := by
  have hpre' : ¬ manifestContentPrefix = idPrefix c.contentID := fun h => hpre h.symm
  rw [runInternal_normal env contents hNo]
  constructor
  · intro hage
    have hcl : classify env c = .tooRecent := classify_tooRecent_iff.2 ⟨hpre', href, hage⟩
    have hnodel : GCAction.deleteContent c.contentID ∉ sweepActions env 0 contents := by
      intro hmem
      obtain ⟨-, ci, hci, hid, hclu⟩ := (sweepActions_mem_delete env c.contentID contents 0).1 hmem
      have : ci = c := same_id_eq hnodup hci hc hid
      rw [this, hcl] at hclu
      cases hclu
    have hnoundel : GCAction.undeleteContent c.contentID ∉ sweepActions env 0 contents := by
      intro hmem
      obtain ⟨ci, hci, hid, hclu, -⟩ :=
        (sweepActions_mem_undelete env c.contentID contents 0).1 hmem
      have : ci = c := same_id_eq hnodup hci hc hid
      rw [this, hcl] at hclu
      cases hclu
    refine ⟨hcl, ?_, ?_, ?_, ?_⟩
    · split <;> simp [hnodel]
    · apply applyActions_untouched c.contentID _ ?_ ?_ contents c hc rfl
      · split <;> simp [hnodel]
      · split <;> simp [hnoundel]
    · simp [catFilter, List.mem_filter, hc, hcl]
    · rfl
  · intro hage hgc
    have hcl : classify env c = .unused :=
      classify_unused_iff.2 ⟨hpre', href, by omega⟩
    have hmem : GCAction.deleteContent c.contentID ∈ sweepActions env 0 contents :=
      (sweepActions_mem_delete env c.contentID contents 0).2 ⟨hgc, c, hc, rfl, hcl⟩
    refine ⟨hcl, ?_, ?_, rfl⟩
    · have hcond : ¬ (0 < (catFilter env .unused contents).length ∧ env.gcDelete = false) := by
        rw [hgc]; simp
      simp [hcond, hmem]
    · simp [catFilter, List.mem_filter, hc, hcl]

/-- **C3.** A dry run that found unused contents returns the delete-flag
diagnostic with fully populated statistics, equal to those of the same
run with the delete flag set. -/
theorem c3_dry_run_signal (env : GCEnv) (contents : List GCContentInfo)
    (hNo : NoErrors env) (hgc : env.gcDelete = false)
    (hun : 0 < (catFilter env .unused contents).length) :
    (runInternal env contents).err = some notDeletingMsg ∧
    (runInternal env contents).stats =
      ⟨(catFilter env .unused contents).length, sumLen (catFilter env .unused contents),
       (catFilter env .inUse contents).length, sumLen (catFilter env .inUse contents),
       (catFilter env .system contents).length, sumLen (catFilter env .system contents),
       (catFilter env .tooRecent contents).length, sumLen (catFilter env .tooRecent contents),
       (undelFilter env contents).length, sumLen (undelFilter env contents)⟩ ∧
    (runInternal env contents).stats =
      (runInternal { env with gcDelete := true } contents).stats := by
  have hNo' : NoErrors { env with gcDelete := true } := hNo
  rw [runInternal_normal env contents hNo,
    runInternal_normal { env with gcDelete := true } contents hNo']
  refine ⟨by simp [hun, hgc], by simp [hun, hgc], ?_⟩
  have hcat : ∀ cat, catFilter { env with gcDelete := true } cat contents =
      catFilter env cat contents := fun _ => rfl
  have hund : undelFilter { env with gcDelete := true } contents =
      undelFilter env contents := rfl
  simp [hun, hgc, hcat, hund]

/-- **C4 (amended).** An error-free run performs the final `Flush` (and
succeeds) whenever the delete flag is set or nothing was unused; it is
the single flush at the end when fewer than 100000 contents were unused.
A dry run that found unused contents returns the diagnostic *before* the
final `Flush`, performing no flush at all. -/
theorem c4_final_flush (env : GCEnv) (contents : List GCContentInfo)
    (hNo : NoErrors env) :
    ((env.gcDelete = true ∨ (catFilter env .unused contents).length = 0) →
      (runInternal env contents).actions =
        sweepActions env 0 contents ++ [GCAction.flush] ∧
      (runInternal env contents).err = none ∧
      ((catFilter env .unused contents).length < 100000 →
        ((runInternal env contents).actions.filter
          (fun a => decide (a = GCAction.flush))).length = 1)) ∧
    (env.gcDelete = false → 0 < (catFilter env .unused contents).length →
      GCAction.flush ∉ (runInternal env contents).actions ∧
      (runInternal env contents).err = some notDeletingMsg) := by
  rw [runInternal_normal env contents hNo]
  constructor
  · intro hdisj
    have hcond : ¬ (0 < (catFilter env .unused contents).length ∧ env.gcDelete = false) := by
      rcases hdisj with h | h
      · rw [h]; simp
      · rw [h]; simp
    refine ⟨by simp [hcond], by simp [hcond], ?_⟩
    intro hlt
    have hsweep : ((sweepActions env 0 contents).filter
        (fun a => decide (a = GCAction.flush))).length = 0 := by
      cases hgc : env.gcDelete with
      | true =>
        rw [sweepActions_flush_count env hgc contents 0]
        omega
      | false =>
        rw [List.length_eq_zero, List.filter_eq_nil_iff]
        intro a ha hfa
        simp at hfa
        rw [hfa] at ha
        have := sweepActions_mem_flush env contents 0 ha
        rw [hgc] at this
        cases this
    simp [hcond, List.filter_append, hsweep]
  · intro hgc hun
    have hcond : 0 < (catFilter env .unused contents).length ∧ env.gcDelete = false :=
      ⟨hun, hgc⟩
    refine ⟨?_, by simp [hcond]⟩
    simp only [hcond, and_self, if_pos]
    intro hmem
    have := sweepActions_mem_flush env contents 0 hmem
    rw [hgc] at this
    cases this

/-- **C5, counterexample.** A tombstoned content that *is* referenced by
the live set but carries the manifest prefix: the run succeeds without
ever calling `UndeleteContent`, and the content stays tombstoned — the
claim's universal statement fails; the manifest-prefix check runs first. -/
theorem c5_counterexample :
    (⟨[109, 48, 49], 10, 0, true⟩ : GCContentInfo).deleted = true ∧
    (⟨[109, 48, 49], 10, 0, true⟩ : GCContentInfo).contentID ∈
      (⟨[[109, 48, 49]], 100, 0, true, fun _ => none, fun _ => none, none⟩ : GCEnv).used ∧
    (runInternal ⟨[[109, 48, 49]], 100, 0, true, fun _ => none, fun _ => none, none⟩
        [⟨[109, 48, 49], 10, 0, true⟩]).err = none ∧
    GCAction.undeleteContent [109, 48, 49] ∉
      (runInternal ⟨[[109, 48, 49]], 100, 0, true, fun _ => none, fun _ => none, none⟩
        [⟨[109, 48, 49], 10, 0, true⟩]).actions ∧
    ∀ d ∈ applyActions [⟨[109, 48, 49], 10, 0, true⟩]
        (runInternal ⟨[[109, 48, 49]], 100, 0, true, fun _ => none, fun _ => none, none⟩
          [⟨[109, 48, 49], 10, 0, true⟩]).actions,
      d.deleted = true := by
  refine ⟨rfl, by simp, ?_, ?_, ?_⟩ <;> decide

/-- **C5 (amended).** A tombstoned content referenced by a walked
snapshot *whose ID does not carry the manifest prefix* is undeleted and
accounted under both `undeleted` and `inUse`, and is no longer
tombstoned after a successful run; a referenced, untombstoned,
non-manifest content only increments `inUse` (no mutation); a failing
`UndeleteContent` aborts the run with that error. -/
theorem c5_undelete_on_reference (env : GCEnv) (contents : List GCContentInfo)
    (c : GCContentInfo) (hc : c ∈ contents) (href : c.contentID ∈ env.used)
    (hdel : c.deleted = true)
    (hpre : idPrefix c.contentID ≠ manifestContentPrefix) :
    (NoErrors env →
      classify env c = .inUse ∧
      GCAction.undeleteContent c.contentID ∈ (runInternal env contents).actions ∧
      c ∈ undelFilter env contents ∧
      c ∈ catFilter env .inUse contents ∧
      (runInternal env contents).stats.UndeletedCount = (undelFilter env contents).length ∧
      (runInternal env contents).stats.InUseCount = (catFilter env .inUse contents).length ∧
      (∀ d ∈ applyActions contents (runInternal env contents).actions,
        d.contentID = c.contentID → d.deleted = false)) ∧
    (∀ c2 ∈ contents, c2.contentID ∈ env.used → c2.deleted = false →
      idPrefix c2.contentID ≠ manifestContentPrefix →
      classify env c2 = .inUse ∧
      c2 ∉ undelFilter env contents ∧
      ∀ st, gcStep env st c2 =
        ({ st with inUse := (st.inUse.add c2.packedLength).1 }, none)) ∧
    (∀ e : String,
      (∀ id, env.undeleteErr id = if id = c.contentID then some e else none) →
      (∀ id, env.deleteErr id = none) → env.flushErr = none →
      (runInternal env contents).err =
        some ("error iterating contents: " ++
          ("Could not undelete referenced content: " ++ e))) := by
  have hpre' : ¬ manifestContentPrefix = idPrefix c.contentID := fun h => hpre h.symm
  have hcl : classify env c = .inUse := classify_inUse_iff.2 ⟨hpre', href⟩
  refine ⟨?_, ?_, ?_⟩
  · intro hNo
    rw [runInternal_normal env contents hNo]
    have hundel : GCAction.undeleteContent c.contentID ∈ sweepActions env 0 contents :=
      (sweepActions_mem_undelete env c.contentID contents 0).2 ⟨c, hc, rfl, hcl, hdel⟩
    have hnodel : ∀ acts, GCAction.deleteContent c.contentID ∈
        sweepActions env 0 contents ++ acts →
        GCAction.deleteContent c.contentID ∈ acts := by
      intro acts hmem
      rcases List.mem_append.1 hmem with hmem | hmem
      · obtain ⟨-, ci, hci, hid, hclu⟩ :=
          (sweepActions_mem_delete env c.contentID contents 0).1 hmem
        have : ci.contentID ∈ env.used := hid ▸ href
        rw [classify_unused_iff] at hclu
        exact absurd this hclu.2.1
      · exact hmem
    refine ⟨hcl, ?_, ?_, ?_, rfl, rfl, ?_⟩
    · split <;> simp [List.mem_append, hundel]
    · simp [undelFilter, List.mem_filter, hc, hcl, hdel]
    · simp [catFilter, List.mem_filter, hc, hcl]
    · apply applyActions_undeleted c.contentID _ contents
      · split
        · exact hundel
        · exact List.mem_append.2 (Or.inl hundel)
      · split
        · intro hmem
          have := hnodel [] (by simpa using hmem)
          simp at this
        · intro hmem
          have := hnodel [GCAction.flush] hmem
          simp at this
  · intro c2 hc2 href2 hdel2 hpre2
    have hcl2 : classify env c2 = .inUse :=
      classify_inUse_iff.2 ⟨fun h => hpre2 h.symm, href2⟩
    refine ⟨hcl2, ?_, fun st => gcStep_inUse_live_eq st hcl2 hdel2⟩
    simp [undelFilter, List.mem_filter, hdel2]
  · intro e hu hd hf
    have herr := gcSweep_undelete_error env e c.contentID hu hd hf contents
      initialSweepState ⟨c, hc, rfl, hdel, hcl⟩
    simp only [runInternal, herr]

/-- **C6.** A manifest-prefixed content ID is never the target of
`DeleteContent` or `UndeleteContent` in any run — whatever its
reachability, tombstone or age, and even when mutations fail — and any
content carrying it is classified `system`, its callback step touching
nothing but the `system` counter. -/
theorem c6_manifest_exempt (id : List Nat)
    (hpre : idPrefix id = manifestContentPrefix) :
    (∀ (env : GCEnv) (contents : List GCContentInfo),
      GCAction.deleteContent id ∉ (runInternal env contents).actions ∧
      GCAction.undeleteContent id ∉ (runInternal env contents).actions) ∧
    (∀ (env : GCEnv) (st : SweepState) (ci : GCContentInfo), ci.contentID = id →
      classify env ci = .system ∧
      gcStep env st ci = ({ st with system := (st.system.add ci.packedLength).1 }, none)) := by
  have hsys : ∀ (env : GCEnv) (ci : GCContentInfo), ci.contentID = id →
      classify env ci = .system := by
    intro env ci hid
    exact classify_system_iff.2 (by rw [hid, hpre])
  constructor
  · intro env contents
    have hsweep := gcSweep_action_source env id contents initialSweepState
    have hnodel : GCAction.deleteContent id ∉
        (gcSweep env contents initialSweepState).1.actions := by
      intro hmem
      rcases hsweep.1 hmem with hin | ⟨ci, hci, hid, hcl⟩
      · simp [initialSweepState] at hin
      · rw [hsys env ci hid] at hcl
        cases hcl
    have hnoundel : GCAction.undeleteContent id ∉
        (gcSweep env contents initialSweepState).1.actions := by
      intro hmem
      rcases hsweep.2 hmem with hin | ⟨ci, hci, hid, hcl⟩
      · simp [initialSweepState] at hin
      · rw [hsys env ci hid] at hcl
        cases hcl
    have hsub : ∀ a, a ∈ (runInternal env contents).actions →
        a ∈ (gcSweep env contents initialSweepState).1.actions ∨ a = GCAction.flush := by
      intro a ha
      simp only [runInternal] at ha
      rcases hsw : (gcSweep env contents initialSweepState).2 with - | e
      · rw [hsw] at ha
        simp only at ha
        split at ha
        · exact Or.inl ha
        · rcases List.mem_append.1 ha with h | h
          · exact Or.inl h
          · simp at h
            exact Or.inr h
      · rw [hsw] at ha
        simp only at ha
        exact Or.inl ha
    constructor
    · intro hmem
      rcases hsub _ hmem with h | h
      · exact hnodel h
      · cases h
    · intro hmem
      rcases hsub _ hmem with h | h
      · exact hnoundel h
      · cases h
  · intro env st ci hid
    exact ⟨hsys env ci hid, gcStep_system_eq st (hsys env ci hid)⟩

/-- **C10.** An already-tombstoned, unreferenced, non-manifest content
past the safety window is classified `unused` on every run: a deleting
run calls `DeleteContent` on it again, and every dry run counts it and
returns the delete-flag diagnostic again. -/
theorem c10_tombstoned_rescan (env : GCEnv) (contents : List GCContentInfo)
    (c : GCContentInfo) (hc : c ∈ contents) (_hdel : c.deleted = true)
    (hpre : idPrefix c.contentID ≠ manifestContentPrefix)
    (href : c.contentID ∉ env.used)
    (hold : ¬ env.now - c.timestampSeconds < env.minContentAge)
    (hNo : NoErrors env) :
    classify env c = .unused ∧
    c ∈ catFilter env .unused contents ∧
    (env.gcDelete = true →
      GCAction.deleteContent c.contentID ∈ (runInternal env contents).actions) ∧
    (env.gcDelete = false →
      (runInternal env contents).err = some notDeletingMsg ∧
      0 < (runInternal env contents).stats.UnusedCount) := by
  have hcl : classify env c = .unused :=
    classify_unused_iff.2 ⟨fun h => hpre h.symm, href, hold⟩
  have hmemf : c ∈ catFilter env .unused contents := by
    simp [catFilter, List.mem_filter, hc, hcl]
  have hpos : 0 < (catFilter env .unused contents).length :=
    List.length_pos.2 (fun h => by rw [h] at hmemf; cases hmemf)
  rw [runInternal_normal env contents hNo]
  refine ⟨hcl, hmemf, ?_, ?_⟩
  · intro hgc
    have hmem : GCAction.deleteContent c.contentID ∈ sweepActions env 0 contents :=
      (sweepActions_mem_delete env c.contentID contents 0).2 ⟨hgc, c, hc, rfl, hcl⟩
    have hcond : ¬ (0 < (catFilter env .unused contents).length ∧ env.gcDelete = false) := by
      rw [hgc]; simp
    simp [hcond, hmem]
  · intro hgc
    have hcond : 0 < (catFilter env .unused contents).length ∧ env.gcDelete = false :=
      ⟨hpos, hgc⟩
    exact ⟨by simp [hcond], by simp [hcond]⟩

/-! ### Concrete GC fixtures for the witnesses -/

/-- A deleting run with an empty live set, clock 100, safety window 50,
no mutation failures. -/
def wEnvDel : GCEnv := ⟨[], 100, 50, true, fun _ => none, fun _ => none, none⟩

/-- The same run with the delete flag unset (dry run). -/
def wEnvDry : GCEnv := ⟨[], 100, 50, false, fun _ => none, fun _ => none, none⟩

/-- A deleting run whose live set references content `"01"`. -/
def wEnvRef : GCEnv := ⟨[[48, 49]], 100, 50, true, fun _ => none, fun _ => none, none⟩

/-- Unreferenced data content written 20 time units ago (inside the window). -/
def wRecent : GCContentInfo := ⟨[48, 49], 5, 80, false⟩

/-- Unreferenced data content written 90 time units ago (past the window). -/
def wOld : GCContentInfo := ⟨[97, 98], 7, 10, false⟩

/-- The same old content already tombstoned. -/
def wOldDel : GCContentInfo := ⟨[97, 98], 7, 10, true⟩

/-- A tombstoned content referenced by the live set of `wEnvRef`. -/
def wRefDel : GCContentInfo := ⟨[48, 49], 5, 10, true⟩

theorem c2_safety_window_witness :
    (NoErrors wEnvDel ∧ wRecent ∈ [wRecent, wOld] ∧
      (([wRecent, wOld].map GCContentInfo.contentID).Nodup) ∧
      idPrefix wRecent.contentID ≠ manifestContentPrefix ∧
      wRecent.contentID ∉ wEnvDel.used) ∧
    ((wEnvDel.now - wRecent.timestampSeconds < wEnvDel.minContentAge →
      classify wEnvDel wRecent = .tooRecent ∧
      GCAction.deleteContent wRecent.contentID ∉ (runInternal wEnvDel [wRecent, wOld]).actions ∧
      wRecent ∈ applyActions [wRecent, wOld] (runInternal wEnvDel [wRecent, wOld]).actions ∧
      wRecent ∈ catFilter wEnvDel .tooRecent [wRecent, wOld] ∧
      (runInternal wEnvDel [wRecent, wOld]).stats.TooRecentCount =
        (catFilter wEnvDel .tooRecent [wRecent, wOld]).length) ∧
    (wEnvDel.minContentAge ≤ wEnvDel.now - wRecent.timestampSeconds →
      wEnvDel.gcDelete = true →
      classify wEnvDel wRecent = .unused ∧
      GCAction.deleteContent wRecent.contentID ∈ (runInternal wEnvDel [wRecent, wOld]).actions ∧
      wRecent ∈ catFilter wEnvDel .unused [wRecent, wOld] ∧
      (runInternal wEnvDel [wRecent, wOld]).stats.UnusedCount =
        (catFilter wEnvDel .unused [wRecent, wOld]).length)) :=
  ⟨⟨⟨fun _ => rfl, fun _ => rfl, rfl⟩, by decide, by decide, by decide, by decide⟩,
   c2_safety_window wEnvDel [wRecent, wOld] wRecent
     ⟨fun _ => rfl, fun _ => rfl, rfl⟩ (by decide) (by decide) (by decide) (by decide)⟩

theorem c3_dry_run_signal_witness :
    (NoErrors wEnvDry ∧ wEnvDry.gcDelete = false ∧
      0 < (catFilter wEnvDry .unused [wRecent, wOld]).length) ∧
    ((runInternal wEnvDry [wRecent, wOld]).err = some notDeletingMsg ∧
     (runInternal wEnvDry [wRecent, wOld]).stats =
      ⟨(catFilter wEnvDry .unused [wRecent, wOld]).length,
       sumLen (catFilter wEnvDry .unused [wRecent, wOld]),
       (catFilter wEnvDry .inUse [wRecent, wOld]).length,
       sumLen (catFilter wEnvDry .inUse [wRecent, wOld]),
       (catFilter wEnvDry .system [wRecent, wOld]).length,
       sumLen (catFilter wEnvDry .system [wRecent, wOld]),
       (catFilter wEnvDry .tooRecent [wRecent, wOld]).length,
       sumLen (catFilter wEnvDry .tooRecent [wRecent, wOld]),
       (undelFilter wEnvDry [wRecent, wOld]).length,
       sumLen (undelFilter wEnvDry [wRecent, wOld])⟩ ∧
     (runInternal wEnvDry [wRecent, wOld]).stats =
       (runInternal { wEnvDry with gcDelete := true } [wRecent, wOld]).stats) :=
  ⟨⟨⟨fun _ => rfl, fun _ => rfl, rfl⟩, rfl, by decide⟩,
   c3_dry_run_signal wEnvDry [wRecent, wOld]
     ⟨fun _ => rfl, fun _ => rfl, rfl⟩ rfl (by decide)⟩

/-- **C4, counterexample.** A dry run over one unused content: the mark
and iteration complete without any I/O or mutation error (the only error
is the dry-run diagnostic), yet no `Flush` is performed at all — the
diagnostic at `gc.go:158` returns before the final `Flush` at line 161. -/
theorem c4_counterexample :
    NoErrors wEnvDry ∧
    (runInternal wEnvDry [wOld]).stats.UnusedCount = 1 ∧
    (runInternal wEnvDry [wOld]).err = some notDeletingMsg ∧
    (runInternal wEnvDry [wOld]).actions = [] ∧
    GCAction.flush ∉ (runInternal wEnvDry [wOld]).actions :=
  ⟨⟨fun _ => rfl, fun _ => rfl, rfl⟩, by decide, by decide, by decide, by decide⟩

theorem c4_final_flush_witness :
    NoErrors wEnvDry ∧
    (((wEnvDry.gcDelete = true ∨ (catFilter wEnvDry .unused [wRecent, wOld]).length = 0) →
      (runInternal wEnvDry [wRecent, wOld]).actions =
        sweepActions wEnvDry 0 [wRecent, wOld] ++ [GCAction.flush] ∧
      (runInternal wEnvDry [wRecent, wOld]).err = none ∧
      ((catFilter wEnvDry .unused [wRecent, wOld]).length < 100000 →
        ((runInternal wEnvDry [wRecent, wOld]).actions.filter
          (fun a => decide (a = GCAction.flush))).length = 1)) ∧
    (wEnvDry.gcDelete = false → 0 < (catFilter wEnvDry .unused [wRecent, wOld]).length →
      GCAction.flush ∉ (runInternal wEnvDry [wRecent, wOld]).actions ∧
      (runInternal wEnvDry [wRecent, wOld]).err = some notDeletingMsg)) :=
  ⟨⟨fun _ => rfl, fun _ => rfl, rfl⟩,
   c4_final_flush wEnvDry [wRecent, wOld] ⟨fun _ => rfl, fun _ => rfl, rfl⟩⟩

theorem c5_undelete_on_reference_witness :
    (wRefDel ∈ [wRefDel, wOld] ∧ wRefDel.contentID ∈ wEnvRef.used ∧
      wRefDel.deleted = true ∧
      idPrefix wRefDel.contentID ≠ manifestContentPrefix) ∧
    ((NoErrors wEnvRef →
      classify wEnvRef wRefDel = .inUse ∧
      GCAction.undeleteContent wRefDel.contentID ∈
        (runInternal wEnvRef [wRefDel, wOld]).actions ∧
      wRefDel ∈ undelFilter wEnvRef [wRefDel, wOld] ∧
      wRefDel ∈ catFilter wEnvRef .inUse [wRefDel, wOld] ∧
      (runInternal wEnvRef [wRefDel, wOld]).stats.UndeletedCount =
        (undelFilter wEnvRef [wRefDel, wOld]).length ∧
      (runInternal wEnvRef [wRefDel, wOld]).stats.InUseCount =
        (catFilter wEnvRef .inUse [wRefDel, wOld]).length ∧
      (∀ d ∈ applyActions [wRefDel, wOld] (runInternal wEnvRef [wRefDel, wOld]).actions,
        d.contentID = wRefDel.contentID → d.deleted = false)) ∧
    (∀ c2 ∈ [wRefDel, wOld], c2.contentID ∈ wEnvRef.used → c2.deleted = false →
      idPrefix c2.contentID ≠ manifestContentPrefix →
      classify wEnvRef c2 = .inUse ∧
      c2 ∉ undelFilter wEnvRef [wRefDel, wOld] ∧
      ∀ st, gcStep wEnvRef st c2 =
        ({ st with inUse := (st.inUse.add c2.packedLength).1 }, none)) ∧
    (∀ e : String,
      (∀ id, wEnvRef.undeleteErr id = if id = wRefDel.contentID then some e else none) →
      (∀ id, wEnvRef.deleteErr id = none) → wEnvRef.flushErr = none →
      (runInternal wEnvRef [wRefDel, wOld]).err =
        some ("error iterating contents: " ++
          ("Could not undelete referenced content: " ++ e)))) :=
  ⟨⟨by decide, by decide, rfl, by decide⟩,
   c5_undelete_on_reference wEnvRef [wRefDel, wOld] wRefDel
     (by decide) (by decide) rfl (by decide)⟩

theorem c6_manifest_exempt_witness :
    idPrefix [109, 48, 49] = manifestContentPrefix ∧
    ((∀ (env : GCEnv) (contents : List GCContentInfo),
      GCAction.deleteContent [109, 48, 49] ∉ (runInternal env contents).actions ∧
      GCAction.undeleteContent [109, 48, 49] ∉ (runInternal env contents).actions) ∧
    (∀ (env : GCEnv) (st : SweepState) (ci : GCContentInfo),
      ci.contentID = [109, 48, 49] →
      classify env ci = .system ∧
      gcStep env st ci =
        ({ st with system := (st.system.add ci.packedLength).1 }, none))) :=
  ⟨by decide, c6_manifest_exempt [109, 48, 49] (by decide)⟩

theorem c10_tombstoned_rescan_witness :
    (wOldDel ∈ [wOldDel] ∧ wOldDel.deleted = true ∧
      idPrefix wOldDel.contentID ≠ manifestContentPrefix ∧
      wOldDel.contentID ∉ wEnvDry.used ∧
      ¬ wEnvDry.now - wOldDel.timestampSeconds < wEnvDry.minContentAge ∧
      NoErrors wEnvDry) ∧
    (classify wEnvDry wOldDel = .unused ∧
     wOldDel ∈ catFilter wEnvDry .unused [wOldDel] ∧
     (wEnvDry.gcDelete = true →
       GCAction.deleteContent wOldDel.contentID ∈ (runInternal wEnvDry [wOldDel]).actions) ∧
     (wEnvDry.gcDelete = false →
       (runInternal wEnvDry [wOldDel]).err = some notDeletingMsg ∧
       0 < (runInternal wEnvDry [wOldDel]).stats.UnusedCount)) :=
  ⟨⟨by decide, rfl, by decide, by decide, by decide, ⟨fun _ => rfl, fun _ => rfl, rfl⟩⟩,
   c10_tombstoned_rescan wEnvDry [wOldDel] wOldDel
     (by decide) rfl (by decide) (by decide) (by decide)
     ⟨fun _ => rfl, fun _ => rfl, rfl⟩⟩

/-! ## C9: `GetOriginalLength` wraps in unsigned 32-bit arithmetic -/

/-- **C9.** `GetOriginalLength` is `GetPackedLength - v1PerContentOverhead`
in unguarded `uint32` arithmetic: when the packed length is smaller than
the overhead the result wraps modulo `2^32` — it neither fails nor
returns zero. -/
theorem c9_original_length_wraps (e : IndexEntryInfoV1)
    (h1 : e.GetPackedLength < e.b.v1PerContentOverhead)
    (h2 : e.b.v1PerContentOverhead < 2 ^ 32) :
    e.GetOriginalLength = 2 ^ 32 + e.GetPackedLength - e.b.v1PerContentOverhead ∧
    e.GetOriginalLength ≠ 0 := by
  unfold IndexEntryInfoV1.GetOriginalLength sub32
  have hp : e.GetPackedLength % 2 ^ 32 = e.GetPackedLength :=
    Nat.mod_eq_of_lt (Nat.lt_trans h1 h2)
  have ho : e.b.v1PerContentOverhead % 2 ^ 32 = e.b.v1PerContentOverhead :=
    Nat.mod_eq_of_lt h2
  rw [hp, ho]
  constructor <;> omega

theorem c9_original_length_wraps_witness :
    ((⟨List.replicate 20 0, [0], ⟨1, 20, 0, [], 1⟩⟩ :
        IndexEntryInfoV1).GetPackedLength <
      (⟨List.replicate 20 0, [0], ⟨1, 20, 0, [], 1⟩⟩ :
        IndexEntryInfoV1).b.v1PerContentOverhead ∧
     (⟨List.replicate 20 0, [0], ⟨1, 20, 0, [], 1⟩⟩ :
        IndexEntryInfoV1).b.v1PerContentOverhead < 2 ^ 32) ∧
    ((⟨List.replicate 20 0, [0], ⟨1, 20, 0, [], 1⟩⟩ :
        IndexEntryInfoV1).GetOriginalLength =
      2 ^ 32 + (⟨List.replicate 20 0, [0], ⟨1, 20, 0, [], 1⟩⟩ :
        IndexEntryInfoV1).GetPackedLength - 1 ∧
     (⟨List.replicate 20 0, [0], ⟨1, 20, 0, [], 1⟩⟩ :
        IndexEntryInfoV1).GetOriginalLength ≠ 0) :=
  ⟨⟨by decide, by decide⟩,
   c9_original_length_wraps ⟨List.replicate 20 0, [0], ⟨1, 20, 0, [], 1⟩⟩
     (by decide) (by decide)⟩

/-! ## Round-trip arithmetic helpers -/

/-- Or of a value whose low `k` bits are clear with a value below `2^k`
is addition. -/
theorem or_eq_add {x y k : Nat} (hx : x % 2 ^ k = 0) (hy : y < 2 ^ k) :
    x ||| y = x + y := by
  obtain ⟨c, hc⟩ := Nat.dvd_of_mod_eq_zero hx
  subst hc
  apply Nat.eq_of_testBit_eq
  intro j
  rw [Nat.testBit_or, Nat.testBit_mul_pow_two_add c hy j, Nat.testBit_mul_pow_two]
  by_cases hj : j < k
  · simp [hj, Nat.not_le_of_lt hj]
  · have hyj : Nat.testBit y j = false :=
      Nat.testBit_lt_two_pow
        (Nat.lt_of_lt_of_le hy (Nat.pow_le_pow_right (by omega) (by omega)))
    simp [hj, Nat.le_of_not_lt hj, hyj]

/-- The 48-bit decoder on six byte values. -/
theorem decode48_bytes {x0 x1 x2 x3 x4 x5 : Nat} (_h0 : x0 < 256) (h1 : x1 < 256)
    (h2 : x2 < 256) (h3 : x3 < 256) (h4 : x4 < 256) (h5 : x5 < 256) :
    x0 <<< 40 ||| x1 <<< 32 ||| x2 <<< 24 ||| x3 <<< 16 ||| x4 <<< 8 ||| x5 =
      x0 * 2 ^ 40 + x1 * 2 ^ 32 + x2 * 2 ^ 24 + x3 * 2 ^ 16 + x4 * 2 ^ 8 + x5 := by
  simp only [Nat.shiftLeft_eq]
  rw [show x0 * 2 ^ 40 ||| x1 * 2 ^ 32 = x0 * 2 ^ 40 + x1 * 2 ^ 32 from
      or_eq_add (k := 40) (by omega) (by omega),
    show x0 * 2 ^ 40 + x1 * 2 ^ 32 ||| x2 * 2 ^ 24 =
        x0 * 2 ^ 40 + x1 * 2 ^ 32 + x2 * 2 ^ 24 from
      or_eq_add (k := 32) (by omega) (by omega),
    show x0 * 2 ^ 40 + x1 * 2 ^ 32 + x2 * 2 ^ 24 ||| x3 * 2 ^ 16 =
        x0 * 2 ^ 40 + x1 * 2 ^ 32 + x2 * 2 ^ 24 + x3 * 2 ^ 16 from
      or_eq_add (k := 24) (by omega) (by omega),
    show x0 * 2 ^ 40 + x1 * 2 ^ 32 + x2 * 2 ^ 24 + x3 * 2 ^ 16 ||| x4 * 2 ^ 8 =
        x0 * 2 ^ 40 + x1 * 2 ^ 32 + x2 * 2 ^ 24 + x3 * 2 ^ 16 + x4 * 2 ^ 8 from
      or_eq_add (k := 16) (by omega) (by omega),
    show x0 * 2 ^ 40 + x1 * 2 ^ 32 + x2 * 2 ^ 24 + x3 * 2 ^ 16 + x4 * 2 ^ 8 ||| x5 =
        x0 * 2 ^ 40 + x1 * 2 ^ 32 + x2 * 2 ^ 24 + x3 * 2 ^ 16 + x4 * 2 ^ 8 + x5 from
      or_eq_add (k := 8) (by omega) (by omega)]

/-- The 32-bit decoder on four byte values. -/
theorem decode32_bytes {x0 x1 x2 x3 : Nat} (_h0 : x0 < 256) (h1 : x1 < 256)
    (h2 : x2 < 256) (h3 : x3 < 256) :
    x0 <<< 24 ||| x1 <<< 16 ||| x2 <<< 8 ||| x3 =
      x0 * 2 ^ 24 + x1 * 2 ^ 16 + x2 * 2 ^ 8 + x3 := by
  simp only [Nat.shiftLeft_eq]
  rw [show x0 * 2 ^ 24 ||| x1 * 2 ^ 16 = x0 * 2 ^ 24 + x1 * 2 ^ 16 from
      or_eq_add (k := 24) (by omega) (by omega),
    show x0 * 2 ^ 24 + x1 * 2 ^ 16 ||| x2 * 2 ^ 8 =
        x0 * 2 ^ 24 + x1 * 2 ^ 16 + x2 * 2 ^ 8 from
      or_eq_add (k := 16) (by omega) (by omega),
    show x0 * 2 ^ 24 + x1 * 2 ^ 16 + x2 * 2 ^ 8 ||| x3 =
        x0 * 2 ^ 24 + x1 * 2 ^ 16 + x2 * 2 ^ 8 + x3 from
      or_eq_add (k := 8) (by omega) (by omega)]

/-- The packed timestamp/version/name-length word of `formatEntry`. -/
theorem timestampAndFlags_eq {ts fv bl : Nat} (hfv : fv < 256) (hbl : bl < 256) :
    (ts <<< 16) ||| (fv <<< 8) ||| bl = ts * 2 ^ 16 + fv * 2 ^ 8 + bl := by
  simp only [Nat.shiftLeft_eq]
  rw [show ts * 2 ^ 16 ||| fv * 2 ^ 8 = ts * 2 ^ 16 + fv * 2 ^ 8 from
      or_eq_add (k := 16) (by omega) (by omega),
    show ts * 2 ^ 16 + fv * 2 ^ 8 ||| bl = ts * 2 ^ 16 + fv * 2 ^ 8 + bl from
      or_eq_add (k := 8) (by omega) (by omega)]

set_option maxRecDepth 4096 in
/-- `x & 0x80 != 0` on a byte tests its high bit. -/
theorem byteAnd128 : ∀ b : Nat, b < 256 → ((b &&& 128 != 0) = decide (128 ≤ b)) := by
  decide

/-- A 4-byte big-endian roundtrip (with any tail). -/
theorem decode32_put32 (v : Nat) (r : List Nat) :
    decodeBigEndianUint32 (putUint32BE v ++ r) = v % 2 ^ 32 := by
  simp only [putUint32BE, List.cons_append, List.nil_append, decodeBigEndianUint32,
    List.getD_cons_zero, List.getD_cons_succ]
  rw [decode32_bytes (by omega) (by omega) (by omega) (by omega)]
  omega

/-! ## List-layout helpers -/

/-- Reading the `i`-th fixed-size chunk of a chunked region. -/
theorem readAt_chunks {w : Nat} :
    ∀ (cs : List (List Nat)) (pre post : List Nat),
      (∀ c ∈ cs, c.length = w) →
      ∀ i (hi : i < cs.length),
        readAt (pre ++ cs.flatten ++ post) (pre.length + w * i) w =
          some (cs.get ⟨i, hi⟩) := by
  intro cs
  induction cs with
  | nil => intro pre post hlen i hi; cases hi
  | cons c rest ih =>
    intro pre post hlen i hi
    cases i with
    | zero =>
      have hc : c.length = w := hlen c (by simp)
      have hange : pre.length + w * 0 + w ≤
          (pre ++ (c :: rest).flatten ++ post).length := by
        simp [List.flatten_cons, hc]
      rw [readAt_eq_some hange]
      congr 1
      have hre : pre ++ (c :: rest).flatten ++ post =
          pre ++ (c ++ (rest.flatten ++ post)) := by
        simp [List.flatten_cons]
      rw [hre, Nat.mul_zero, Nat.add_zero, List.drop_left' rfl,
        List.take_append_of_le_length (Nat.le_of_eq hc.symm),
        List.take_of_length_le (Nat.le_of_eq hc)]
      rfl
    | succ i' =>
      have hc : c.length = w := hlen c (by simp)
      have hassoc : pre ++ (c :: rest).flatten ++ post =
          (pre ++ c) ++ rest.flatten ++ post := by
        simp [List.flatten_cons]
      rw [hassoc]
      have hoff : pre.length + w * (i' + 1) =
          (pre ++ c).length + w * i' := by
        simp [List.length_append, hc]
        ring
      rw [hoff]
      have hi' : i' < rest.length := by simpa using Nat.lt_of_succ_lt_succ hi
      rw [ih (pre ++ c) post (fun x hx => hlen x (by simp [hx])) i' hi']
      rfl

/-- A list of constant-length chunks flattens to `count * w` bytes. -/
theorem flatten_const_length {w : Nat} :
    ∀ {cs : List (List Nat)}, (∀ c ∈ cs, c.length = w) →
      cs.flatten.length = cs.length * w := by
  intro cs
  induction cs with
  | nil => intro _; simp
  | cons c rest ih =>
    intro h
    simp only [List.flatten_cons, List.length_append, List.length_cons]
    rw [ih (fun x hx => h x (by simp [hx])), h c (by simp)]
    ring

/-- `mapM` over `Except` succeeds pointwise. -/
theorem exceptMapM_ok {α β : Type} {f : α → Except String β} {g : α → β} :
    ∀ {l : List α}, (∀ x ∈ l, f x = .ok (g x)) → l.mapM f = .ok (l.map g) := by
  intro l
  induction l with
  | nil => intro _; rfl
  | cons x rest ih =>
    intro h
    rw [List.mapM_cons, h x (by simp), ih (fun y hy => h y (by simp [hy]))]
    rfl

theorem findOffset_append_some {m1 : List (List Nat × Nat)} {bid : List Nat} {off : Nat}
    (h : findOffset m1 bid = some off) (m2 : List (List Nat × Nat)) :
    findOffset (m1 ++ m2) bid = some off := by
  induction m1 with
  | nil => cases h
  | cons p rest ih =>
    rw [List.cons_append]
    rcases p with ⟨pk, pv⟩
    by_cases hk : pk = bid
    · rw [findOffset, if_pos hk] at h ⊢
      exact h
    · rw [findOffset, if_neg hk] at h ⊢
      exact ih h

theorem findOffset_append_none {m1 : List (List Nat × Nat)} {bid : List Nat}
    (h : findOffset m1 bid = none) (off : Nat) :
    findOffset (m1 ++ [(bid, off)]) bid = some off := by
  induction m1 with
  | nil => simp [findOffset]
  | cons p rest ih =>
    rcases p with ⟨pk, pv⟩
    by_cases hk : pk = bid
    · rw [findOffset, if_pos hk] at h
      cases h
    · rw [List.cons_append, findOffset, if_neg hk]
      rw [findOffset, if_neg hk] at h
      exact ih h

/-! ## Pooling invariants (`prepareExtraData`) -/

/-- One step of the pooling fold. -/
def poolStep (acc : List Nat × List (List Nat × Nat)) (it : InfoE) :
    List Nat × List (List Nat × Nat) :=
  if it.packBlobID ≠ [] then
    match findOffset acc.2 it.packBlobID with
    | some _ => acc
    | none => (acc.1 ++ it.packBlobID, acc.2 ++ [(it.packBlobID, acc.1.length)])
  else acc

theorem poolBlobIDs_eq_foldl (l : List InfoE) :
    poolBlobIDs l = l.foldl poolStep ([], []) := rfl

/-- Every recorded offset points at its blob ID inside the extra data. -/
def PoolInv (acc : List Nat × List (List Nat × Nat)) : Prop :=
  ∀ p ∈ acc.2, p.2 + p.1.length ≤ acc.1.length ∧
    ((acc.1.drop p.2).take p.1.length) = p.1

theorem poolStep_new {acc : List Nat × List (List Nat × Nat)} {it : InfoE}
    (hb : it.packBlobID ≠ []) (hf : findOffset acc.2 it.packBlobID = none) :
    poolStep acc it = (acc.1 ++ it.packBlobID,
      acc.2 ++ [(it.packBlobID, acc.1.length)]) := by
  unfold poolStep
  rw [if_pos hb, hf]

theorem poolStep_old {acc : List Nat × List (List Nat × Nat)} {it : InfoE}
    {o : Nat} (hb : it.packBlobID ≠ [])
    (hf : findOffset acc.2 it.packBlobID = some o) : poolStep acc it = acc := by
  unfold poolStep
  rw [if_pos hb, hf]

theorem poolStep_empty {acc : List Nat × List (List Nat × Nat)} {it : InfoE}
    (hb : ¬ it.packBlobID ≠ []) : poolStep acc it = acc := by
  unfold poolStep
  rw [if_neg hb]

theorem poolStep_inv {acc : List Nat × List (List Nat × Nat)} {it : InfoE}
    (h : PoolInv acc) : PoolInv (poolStep acc it) := by
  by_cases hb : it.packBlobID ≠ []
  · rcases hf : findOffset acc.2 it.packBlobID with - | off
    · rw [poolStep_new hb hf]
      intro p hp
      rcases List.mem_append.1 hp with hp | hp
      · obtain ⟨h1, h2⟩ := h p hp
        refine ⟨by simp; omega, ?_⟩
        rw [List.drop_append_of_le_length (by omega),
          List.take_append_of_le_length (by simp [List.length_drop]; omega), h2]
      · simp only [List.mem_singleton] at hp
        subst hp
        refine ⟨by simp, ?_⟩
        simp only
        rw [List.drop_left' rfl, List.take_of_length_le (Nat.le_refl _)]
    · rw [poolStep_old hb hf]
      exact h
  · rw [poolStep_empty hb]
    exact h

theorem poolStep_persist {acc : List Nat × List (List Nat × Nat)} {it : InfoE}
    {bid : List Nat} {off : Nat} (h : findOffset acc.2 bid = some off) :
    findOffset (poolStep acc it).2 bid = some off := by
  by_cases hb : it.packBlobID ≠ []
  · rcases hf : findOffset acc.2 it.packBlobID with - | o
    · rw [poolStep_new hb hf]
      exact findOffset_append_some h _
    · rw [poolStep_old hb hf]
      exact h
  · rw [poolStep_empty hb]
    exact h

theorem poolFold_inv {l : List InfoE} :
    ∀ {acc}, PoolInv acc → PoolInv (l.foldl poolStep acc) := by
  induction l with
  | nil => intro acc h; exact h
  | cons it rest ih =>
    intro acc h
    exact ih (poolStep_inv h)

theorem poolFold_persist {l : List InfoE} {bid : List Nat} {off : Nat} :
    ∀ {acc}, findOffset acc.2 bid = some off →
      findOffset (l.foldl poolStep acc).2 bid = some off := by
  induction l with
  | nil => intro acc h; exact h
  | cons it rest ih =>
    intro acc h
    exact ih (poolStep_persist h)

theorem poolFold_present {l : List InfoE} {it : InfoE} (hit : it ∈ l)
    (hbid : it.packBlobID ≠ []) :
    ∀ acc, ∃ off, findOffset (l.foldl poolStep acc).2 it.packBlobID = some off := by
  induction l with
  | nil => cases hit
  | cons a rest ih =>
    intro acc
    rw [List.foldl_cons]
    rcases List.mem_cons.1 hit with hit0 | hit0
    · subst hit0
      have hstep : ∃ off, findOffset (poolStep acc it).2 it.packBlobID = some off := by
        rcases hf : findOffset acc.2 it.packBlobID with - | o
        · rw [poolStep_new hbid hf]
          exact ⟨acc.1.length, findOffset_append_none hf _⟩
        · rw [poolStep_old hbid hf]
          exact ⟨o, hf⟩
      obtain ⟨off, hoff⟩ := hstep
      exact ⟨off, poolFold_persist hoff⟩
    · exact ih hit0 _

/-- The offset map resolves every entry's non-empty pack blob ID to a
slice of the extra-data region equal to that blob ID. -/
theorem poolBlobIDs_lookup {l : List InfoE} {it : InfoE} (hit : it ∈ l)
    (hbid : it.packBlobID ≠ []) :
    ∃ off, findOffset (poolBlobIDs l).2 it.packBlobID = some off ∧
      off + it.packBlobID.length ≤ (poolBlobIDs l).1.length ∧
      (((poolBlobIDs l).1.drop off).take it.packBlobID.length) = it.packBlobID := by
  rw [poolBlobIDs_eq_foldl]
  obtain ⟨off, hoff⟩ := poolFold_present hit hbid ([], [])
  have hinv : PoolInv (l.foldl poolStep ([], [])) :=
    poolFold_inv (by intro p hp; cases hp)
  have hmem : (it.packBlobID, off) ∈ (l.foldl poolStep ([], [])).2 := by
    clear hinv
    revert hoff
    generalize (l.foldl poolStep ([], [])).2 = m
    induction m with
    | nil => intro h; cases h
    | cons p rest ih =>
      intro h
      rcases p with ⟨pk, pv⟩
      by_cases hk : pk = it.packBlobID
      · rw [findOffset, if_pos hk] at h
        cases h
        rw [hk]
        exact List.mem_cons_self _ _
      · rw [findOffset, if_neg hk] at h
        exact List.mem_cons_of_mem _ (ih h)
  obtain ⟨h1, h2⟩ := hinv _ hmem
  exact ⟨off, hoff, h1, h2⟩

/-! ## The built file, described -/

/-- The 20 value bytes `formatEntry` writes for one entry (the success
payload of `formatEntry`). -/
def entryBytes (extraOff : Nat) (offs : List (List Nat × Nat)) (it : InfoE) : List Nat :=
  putUint64BE ((it.timestampSeconds <<< 16) ||| (it.formatVersion <<< 8) |||
    it.packBlobID.length) ++
  putUint32BE ((extraOff + (findOffset offs it.packBlobID).getD 0) % 2 ^ 32) ++
  putUint32BE (if it.deleted then it.packOffset ||| deletedMarker else it.packOffset) ++
  putUint32BE it.packedLength

/-- The extra-data region of the index built from `S`. -/
def builtExtra (S : List InfoE) : List Nat := (poolBlobIDs (sortedContents S)).1

/-- The pack-blob-ID offset map of the index built from `S`. -/
def builtOffs (S : List InfoE) : List (List Nat × Nat) := (poolBlobIDs (sortedContents S)).2

/-- The extra-data offset of the index built from `S`. -/
def builtExtraOff (S : List InfoE) : Nat := extraDataOffsetOf (sortedContents S)

/-- One `key || entry` row of the index built from `S`. -/
def buildRow (S : List InfoE) (e : InfoE) : List Nat :=
  contentIDToBytes e.contentID ++ entryBytes (builtExtraOff S) (builtOffs S) e

/-- The 8-byte header of the index built from `S`. -/
def buildHeader (S : List InfoE) : List Nat :=
  1 :: keyLengthByte (sortedContents S) ::
    (putUint16BE entryFixedHeaderLength ++
      putUint32BE ((sortedContents S).length % 2 ^ 32))

/-- The full index file built from `S` (header, sorted rows, extra data,
random suffix). -/
def buildFile (S : List InfoE) (suffix : List Nat) : List Nat :=
  buildHeader S ++ ((sortedContents S).map (buildRow S)).flatten ++
    builtExtra S ++ suffix

/-- The reader state produced by opening the index built from `S`. -/
def builtIndex (S : List InfoE) (suffix : List Nat) (overhead : Nat) : IndexV1 :=
  ⟨keyLengthByte (sortedContents S), entryFixedHeaderLength,
    (sortedContents S).length, buildFile S suffix, overhead⟩

/-- The lazy `Info` view the reader hands out for entry `e` of the index
built from `S`. -/
def builtView (S : List InfoE) (suffix : List Nat) (overhead : Nat) (e : InfoE) :
    IndexEntryInfoV1 :=
  ⟨entryBytes (builtExtraOff S) (builtOffs S) e, e.contentID,
    builtIndex S suffix overhead⟩

/-- Valid builder metadata for one entry (the claims' "valid metadata"):
key of the common length, non-empty pack blob ID of at most 255 bytes,
timestamp below `2^48`, format version a byte, pack offset below `2^31`,
packed length a `uint32`. -/
def ValidEntry (k : Nat) (e : InfoE) : Prop :=
  e.contentID.length = k ∧ e.packBlobID ≠ [] ∧ e.packBlobID.length ≤ 255 ∧
  e.timestampSeconds < 2 ^ 48 ∧ e.formatVersion < 256 ∧
  e.packOffset < 2 ^ 31 ∧ e.packedLength < 2 ^ 32

instance (k : Nat) (e : InfoE) : Decidable (ValidEntry k e) := by
  unfold ValidEntry; infer_instance

/-- A valid build input: a usable common key length and distinct content
IDs with valid metadata. -/
def ValidInput (S : List InfoE) (k : Nat) : Prop :=
  0 < k ∧ k < 255 ∧ (∀ e ∈ S, ValidEntry k e) ∧ (S.map InfoE.contentID).Nodup

instance (S : List InfoE) (k : Nat) : Decidable (ValidInput S k) := by
  unfold ValidInput; infer_instance

/-- The index file fits in the `uint32` offsets the format uses. -/
def buildFits (S : List InfoE) (k : Nat) : Prop :=
  packHeaderSize + S.length * (k + entryFixedHeaderLength) +
    (builtExtra S).length < 2 ^ 32

instance (S : List InfoE) (k : Nat) : Decidable (buildFits S k) := by
  unfold buildFits; infer_instance

/-! ## Sorted-contents facts -/

theorem sortedContents_perm (S : List InfoE) : (sortedContents S).Perm S :=
  List.perm_insertionSort _ _

theorem sortedContents_mem {S : List InfoE} {e : InfoE} :
    e ∈ sortedContents S ↔ e ∈ S :=
  (sortedContents_perm S).mem_iff

theorem sortedContents_length (S : List InfoE) :
    (sortedContents S).length = S.length :=
  (sortedContents_perm S).length_eq

theorem sortedContents_sorted (S : List InfoE) :
    List.Pairwise entryLe (sortedContents S) :=
  List.sorted_insertionSort _ _

/-- With distinct content IDs, the sorted entries have strictly
increasing keys. -/
theorem sortedKeys_strict {S : List InfoE}
    (h : (S.map InfoE.contentID).Nodup) :
    List.Pairwise (fun a b : InfoE => bytesLt a.contentID b.contentID = true)
      (sortedContents S) := by
  have hn : ((sortedContents S).map InfoE.contentID).Nodup :=
    (((sortedContents_perm S).map _).nodup_iff).2 h
  have hp : List.Pairwise (fun a b : InfoE => a.contentID ≠ b.contentID)
      (sortedContents S) := by
    rw [List.Nodup, List.pairwise_map] at hn
    exact hn
  exact ((sortedContents_sorted S).and hp).imp
    (fun hab => bytesLt_of_le_of_ne hab.1 hab.2)

theorem keyLengthZ_sorted {S : List InfoE} {k : Nat}
    (hval : ∀ e ∈ S, ValidEntry k e) (hne : S ≠ []) :
    keyLengthZ (sortedContents S) = (k : Int) := by
  rcases hs : sortedContents S with - | ⟨a, rest⟩
  · have := sortedContents_length S
    rw [hs] at this
    cases S with
    | nil => exact absurd rfl hne
    | cons x xs => simp at this
  · have ha : a ∈ S := sortedContents_mem.1 (by rw [hs]; simp)
    have := (hval a ha).1
    simp [keyLengthZ, this]

theorem keyLengthByte_sorted {S : List InfoE} {k : Nat}
    (hval : ∀ e ∈ S, ValidEntry k e) (hk : k < 256) (hne : S ≠ []) :
    keyLengthByte (sortedContents S) = k := by
  rcases hs : sortedContents S with - | ⟨a, rest⟩
  · have := sortedContents_length S
    rw [hs] at this
    cases S with
    | nil => exact absurd rfl hne
    | cons x xs => simp at this
  · have ha : a ∈ S := sortedContents_mem.1 (by rw [hs]; simp)
    have h1 := (hval a ha).1
    simp [keyLengthByte, h1, Nat.mod_eq_of_lt hk]

/-! ## Build success -/

theorem formatEntry_ok {eo : Nat} {offs : List (List Nat × Nat)} {it : InfoE}
    (h : it.packBlobID ≠ []) :
    formatEntry eo offs it = .ok (entryBytes eo offs it) := by
  simp [formatEntry, entryBytes, h]

theorem writeEntry_ok {S : List InfoE} {k : Nat}
    (hval : ∀ e ∈ S, ValidEntry k e) (hne : S ≠ []) {e : InfoE}
    (he : e ∈ sortedContents S) :
    writeEntry (keyLengthZ (sortedContents S)) (builtExtraOff S) (builtOffs S) e =
      .ok (buildRow S e) := by
  have heS : e ∈ S := sortedContents_mem.1 he
  have hk : (contentIDToBytes e.contentID).length = k := (hval e heS).1
  rw [writeEntry, keyLengthZ_sorted hval hne, hk, if_neg (by simp),
    formatEntry_ok (hval e heS).2.1]
  rfl

/-- `buildV1` succeeds on valid input producing exactly `buildFile`. -/
theorem buildV1_eq {S : List InfoE} {k : Nat} (suffix : List Nat)
    (hval : ValidInput S k) :
    buildV1 S suffix = .ok (buildFile S suffix) := by
  obtain ⟨-, -, hve, -⟩ := hval
  cases hS : S with
  | nil => rfl
  | cons x xs =>
    rw [← hS]
    have hne : S ≠ [] := by rw [hS]; exact fun h => by cases h
    have hmap := exceptMapM_ok
      (f := writeEntry (keyLengthZ (sortedContents S))
        (extraDataOffsetOf (sortedContents S)) (poolBlobIDs (sortedContents S)).2)
      (g := buildRow S) (l := sortedContents S)
      (fun e he => writeEntry_ok hve hne he)
    rw [buildV1, hmap]
    rfl

/-! ## Opening the built file -/

theorem buildRow_length {S : List InfoE} {k : Nat}
    (hval : ∀ e ∈ S, ValidEntry k e) {e : InfoE} (he : e ∈ sortedContents S) :
    (buildRow S e).length = k + entryFixedHeaderLength := by
  have heS : e ∈ S := sortedContents_mem.1 he
  simp [buildRow, contentIDToBytes, entryBytes, putUint64BE, putUint32BE,
    (hval e heS).1, entryFixedHeaderLength]

theorem buildHeader_length (S : List InfoE) : (buildHeader S).length = 8 := by
  simp [buildHeader, putUint16BE, putUint32BE]

theorem buildFile_length {S : List InfoE} {k : Nat} (suffix : List Nat)
    (hval : ∀ e ∈ S, ValidEntry k e) :
    (buildFile S suffix).length =
      packHeaderSize + S.length * (k + entryFixedHeaderLength) +
        (builtExtra S).length + suffix.length := by
  have hrows : (((sortedContents S).map (buildRow S)).flatten).length =
      S.length * (k + entryFixedHeaderLength) := by
    rw [flatten_const_length (w := k + entryFixedHeaderLength)]
    · simp [sortedContents_length]
    · intro c hc
      obtain ⟨e, he, hce⟩ := List.mem_map.1 hc
      rw [← hce]
      exact buildRow_length hval he
  simp [buildFile, buildHeader_length, hrows, packHeaderSize]
  omega

theorem entryCount_lt {S : List InfoE} {k : Nat} (hfits : buildFits S k) :
    S.length < 2 ^ 32 := by
  unfold buildFits packHeaderSize entryFixedHeaderLength at hfits
  have h1 : S.length ≤ S.length * (k + 20) :=
    Nat.le_mul_of_pos_right _ (by omega)
  omega

/-- Opening the built file succeeds and yields exactly the header data. -/
theorem openV1_built {S : List InfoE} {k : Nat} (suffix : List Nat)
    (overhead : Nat) (hval : ValidInput S k) (hfits : buildFits S k) :
    openV1 (buildFile S suffix) overhead = .ok (builtIndex S suffix overhead) := by
  have hlen8 : (0 : Nat) + packHeaderSize ≤ (buildFile S suffix).length := by
    rw [buildFile_length suffix hval.2.2.1]
    unfold packHeaderSize
    omega
  have hread : readAt (buildFile S suffix) 0 packHeaderSize =
      some (buildHeader S) := by
    rw [readAt_eq_some hlen8, List.drop_zero]
    have : buildFile S suffix = buildHeader S ++
        (((sortedContents S).map (buildRow S)).flatten ++ builtExtra S ++ suffix) := by
      simp [buildFile]
    rw [this, List.take_append_of_le_length
        (by rw [buildHeader_length]; decide),
      List.take_of_length_le (by rw [buildHeader_length]; decide)]
  have hcnt : decodeBigEndianUint32 ((buildHeader S).drop 4) =
      (sortedContents S).length := by
    have hdrop : (buildHeader S).drop 4 =
        putUint32BE ((sortedContents S).length % 2 ^ 32) := by
      simp [buildHeader, putUint16BE]
    rw [hdrop, show putUint32BE ((sortedContents S).length % 2 ^ 32) =
        putUint32BE ((sortedContents S).length % 2 ^ 32) ++ [] by simp,
      decode32_put32]
    rw [sortedContents_length]
    have := entryCount_lt hfits
    omega
  have hgd0 : (buildHeader S).getD 0 0 = 1 := by simp [buildHeader]
  have hgd2 : (buildHeader S).getD 2 0 = 0 := by
    simp [buildHeader, putUint16BE, entryFixedHeaderLength]
  have hgd3 : (buildHeader S).getD 3 0 = 20 := by
    simp [buildHeader, putUint16BE, entryFixedHeaderLength]
  have hgd1 : (buildHeader S).getD 1 0 = keyLengthByte (sortedContents S) := by
    simp [buildHeader]
  simp only [openV1, hread, hgd0, hgd2, hgd3, hgd1, hcnt, entryFixedHeaderLength]
  simp [builtIndex, entryFixedHeaderLength]

/-! ## Parsing one row back -/

theorem entryBytes_length (eo : Nat) (offs : List (List Nat × Nat)) (it : InfoE) :
    (entryBytes eo offs it).length = 20 := by
  simp [entryBytes, putUint64BE, putUint32BE]

theorem entryBytes_getD6 {eo : Nat} {offs : List (List Nat × Nat)} {it : InfoE}
    (hfv : it.formatVersion < 256) (hbl : it.packBlobID.length ≤ 255) :
    (entryBytes eo offs it).getD 6 0 = it.formatVersion := by
  simp only [entryBytes, putUint64BE, putUint32BE, List.cons_append, List.nil_append,
    List.getD_cons_succ, List.getD_cons_zero]
  rw [timestampAndFlags_eq hfv (by omega)]
  omega

theorem entryBytes_getD7 {eo : Nat} {offs : List (List Nat × Nat)} {it : InfoE}
    (hfv : it.formatVersion < 256) (hbl : it.packBlobID.length ≤ 255) :
    (entryBytes eo offs it).getD 7 0 = it.packBlobID.length := by
  simp only [entryBytes, putUint64BE, putUint32BE, List.cons_append, List.nil_append,
    List.getD_cons_succ, List.getD_cons_zero]
  rw [timestampAndFlags_eq hfv (by omega)]
  omega

theorem entryBytes_timestamp {eo : Nat} {offs : List (List Nat × Nat)} {it : InfoE}
    (hts : it.timestampSeconds < 2 ^ 48) (hfv : it.formatVersion < 256)
    (hbl : it.packBlobID.length ≤ 255) :
    decodeBigEndianUint48 (entryBytes eo offs it) = it.timestampSeconds := by
  simp only [entryBytes, putUint64BE, putUint32BE, List.cons_append, List.nil_append,
    decodeBigEndianUint48, List.getD_cons_succ, List.getD_cons_zero]
  rw [timestampAndFlags_eq hfv (by omega)]
  rw [decode48_bytes (by omega) (by omega) (by omega) (by omega) (by omega) (by omega)]
  omega

theorem entryBytes_blobOffset {eo : Nat} {offs : List (List Nat × Nat)} {it : InfoE} :
    decodeBigEndianUint32 ((entryBytes eo offs it).drop 8) =
      (eo + (findOffset offs it.packBlobID).getD 0) % 2 ^ 32 := by
  simp only [entryBytes, putUint64BE, putUint32BE, List.cons_append, List.nil_append,
    List.drop_succ_cons, List.drop_zero, decodeBigEndianUint32,
    List.getD_cons_succ, List.getD_cons_zero]
  rw [decode32_bytes (by omega) (by omega) (by omega) (by omega)]
  omega

theorem entryBytes_packField {eo : Nat} {offs : List (List Nat × Nat)} {it : InfoE} :
    decodeBigEndianUint32 ((entryBytes eo offs it).drop 12) =
      (if it.deleted then it.packOffset ||| deletedMarker else it.packOffset) % 2 ^ 32 := by
  simp only [entryBytes, putUint64BE, putUint32BE, List.cons_append, List.nil_append,
    List.drop_succ_cons, List.drop_zero, decodeBigEndianUint32,
    List.getD_cons_succ, List.getD_cons_zero]
  rw [decode32_bytes (by omega) (by omega) (by omega) (by omega)]
  omega

theorem packField_eq {p : Nat} (hp : p < 2 ^ 31) {del : Bool} :
    (if del then p ||| deletedMarker else p) =
      (if del then 2 ^ 31 + p else p) := by
  cases del with
  | false => rfl
  | true =>
    simp only [if_pos]
    rw [Nat.or_comm]
    exact or_eq_add (k := 31) (by simp [deletedMarker]) hp

theorem entryBytes_getPackOffset {eo : Nat} {offs : List (List Nat × Nat)} {it : InfoE}
    (hp : it.packOffset < 2 ^ 31) :
    decodeBigEndianUint32 ((entryBytes eo offs it).drop 12) &&& (2 ^ 31 - 1) =
      it.packOffset := by
  rw [entryBytes_packField, packField_eq hp, Nat.and_pow_two_sub_one_eq_mod]
  cases hd : it.deleted with
  | false =>
    simp only [Bool.false_eq_true, if_false]
    omega
  | true =>
    simp only [if_true]
    omega

theorem entryBytes_getD12 {eo : Nat} {offs : List (List Nat × Nat)} {it : InfoE} :
    (entryBytes eo offs it).getD 12 0 =
      (if it.deleted then it.packOffset ||| deletedMarker else it.packOffset) /
        2 ^ 24 % 256 := by
  simp only [entryBytes, putUint64BE, putUint32BE, List.cons_append, List.nil_append,
    List.getD_cons_succ, List.getD_cons_zero]

theorem entryBytes_getDeleted {eo : Nat} {offs : List (List Nat × Nat)} {it : InfoE}
    (hp : it.packOffset < 2 ^ 31) :
    ((entryBytes eo offs it).getD 12 0 &&& 0x80 != 0) = it.deleted := by
  rw [entryBytes_getD12, packField_eq hp]
  cases hd : it.deleted with
  | false =>
    simp only [Bool.false_eq_true, if_false]
    rw [byteAnd128 _ (by omega)]
    simp only [decide_eq_false_iff_not]
    omega
  | true =>
    simp only [if_true]
    rw [byteAnd128 _ (by omega)]
    simp only [decide_eq_true_eq]
    omega

theorem entryBytes_getPackedLength {eo : Nat} {offs : List (List Nat × Nat)}
    {it : InfoE} (hpl : it.packedLength < 2 ^ 32) :
    decodeBigEndianUint32 ((entryBytes eo offs it).drop 16) = it.packedLength := by
  simp only [entryBytes, putUint64BE, putUint32BE, List.cons_append, List.nil_append,
    List.drop_succ_cons, List.drop_zero, decodeBigEndianUint32,
    List.getD_cons_succ, List.getD_cons_zero]
  rw [decode32_bytes (by omega) (by omega) (by omega) (by omega)]
  omega

/-! ## The view accessors recover the build input -/

theorem rowsFlat_length {S : List InfoE} {k : Nat}
    (hval : ∀ e ∈ S, ValidEntry k e) :
    (((sortedContents S).map (buildRow S)).flatten).length =
      S.length * (k + entryFixedHeaderLength) := by
  rw [flatten_const_length (w := k + entryFixedHeaderLength)]
  · simp [sortedContents_length]
  · intro c hc
    obtain ⟨e, he, hce⟩ := List.mem_map.1 hc
    rw [← hce]
    exact buildRow_length hval he

theorem builtExtraOff_eq {S : List InfoE} {k : Nat}
    (hval : ∀ e ∈ S, ValidEntry k e) (hfits : buildFits S k) (hne : S ≠ []) :
    builtExtraOff S =
      packHeaderSize + S.length * (k + entryFixedHeaderLength) := by
  unfold builtExtraOff extraDataOffsetOf
  rw [keyLengthZ_sorted hval hne, sortedContents_length]
  simp only [Int.toNat_natCast]
  apply Nat.mod_eq_of_lt
  unfold buildFits at hfits
  omega

theorem builtView_packBlobID {S : List InfoE} {k : Nat} (suffix : List Nat)
    (overhead : Nat) (hval : ValidInput S k) (hfits : buildFits S k) {e : InfoE}
    (he : e ∈ sortedContents S) :
    (builtView S suffix overhead e).GetPackBlobID = e.packBlobID := by
  have heS := sortedContents_mem.1 he
  have hvee := hval.2.2.1 e heS
  have hne : S ≠ [] := by intro h; rw [h] at heS; cases heS
  obtain ⟨off0, hoff, hbound, hslice⟩ := poolBlobIDs_lookup he hvee.2.1
  have hoff2 : findOffset (builtOffs S) e.packBlobID = some off0 := hoff
  have heo := builtExtraOff_eq hval.2.2.1 hfits hne
  have hextra : (poolBlobIDs (sortedContents S)).1 = builtExtra S := rfl
  rw [hextra] at hbound hslice
  unfold IndexEntryInfoV1.GetPackBlobID builtView
  simp only
  rw [entryBytes_getD7 hvee.2.2.2.2.1 hvee.2.2.1, entryBytes_blobOffset, hoff2]
  simp only [Option.getD_some]
  have hmod : (builtExtraOff S + off0) % 2 ^ 32 = builtExtraOff S + off0 := by
    apply Nat.mod_eq_of_lt
    unfold buildFits at hfits
    omega
  rw [hmod]
  have hlenA : (buildHeader S ++ ((sortedContents S).map (buildRow S)).flatten).length =
      builtExtraOff S := by
    rw [List.length_append, buildHeader_length, rowsFlat_length hval.2.2.1, heo]
    rfl
  have hfl : (buildFile S suffix).length =
      packHeaderSize + S.length * (k + entryFixedHeaderLength) +
        (builtExtra S).length + suffix.length :=
    buildFile_length suffix hval.2.2.1
  have hrange : builtExtraOff S + off0 + e.packBlobID.length ≤
      (buildFile S suffix).length := by
    rw [hfl, heo]
    omega
  have hfd : (builtIndex S suffix overhead).fileData = buildFile S suffix := rfl
  rw [hfd, readAt_eq_some hrange]
  have hsplit : buildFile S suffix =
      (buildHeader S ++ ((sortedContents S).map (buildRow S)).flatten) ++
        (builtExtra S ++ suffix) := by
    simp [buildFile]
  rw [hsplit, show builtExtraOff S + off0 =
      (buildHeader S ++ ((sortedContents S).map (buildRow S)).flatten).length + off0 by
        rw [hlenA],
    List.drop_append,
    List.drop_append_of_le_length (by omega),
    List.take_append_of_le_length (by simp [List.length_drop]; omega),
    hslice]

/-- Every accessor of the built view returns the build-time value. -/
theorem viewFields_built {S : List InfoE} {k : Nat} (suffix : List Nat)
    (overhead : Nat) (hval : ValidInput S k) (hfits : buildFits S k) {e : InfoE}
    (he : e ∈ sortedContents S) :
    viewFields (builtView S suffix overhead e) = e := by
  have heS := sortedContents_mem.1 he
  have hvee := hval.2.2.1 e heS
  obtain ⟨hk, hbid, hbl, hts, hfv, hpo, hpl⟩ := hvee
  have hblob := builtView_packBlobID suffix overhead hval hfits he
  rcases e with ⟨cid, ts, fv, bid, del, po, pl⟩
  simp only [viewFields, InfoE.mk.injEq]
  refine ⟨rfl, ?_, ?_, ?_, ?_, ?_, ?_⟩
  · exact entryBytes_timestamp hts hfv hbl
  · exact entryBytes_getD6 hfv hbl
  · exact hblob
  · exact entryBytes_getDeleted hpo
  · exact entryBytes_getPackOffset hpo
  · exact entryBytes_getPackedLength hpl

/-! ## `sort.Search` correctness -/

theorem sortSearchGo_stop {f : Nat → Option Bool} {i j : Nat} {err : Bool}
    (h : ¬ i < j) : sortSearchGo f i j err = (i, err) := by
  rw [sortSearchGo, dif_neg h]

theorem sortSearchGo_step_true {f : Nat → Option Bool} {i j : Nat} (h : i < j)
    (hf : f ((i + j) / 2) = some true) :
    sortSearchGo f i j false = sortSearchGo f i ((i + j) / 2) false := by
  rw [sortSearchGo, dif_pos h]
  simp [hf]

theorem sortSearchGo_step_false {f : Nat → Option Bool} {i j : Nat} (h : i < j)
    (hf : f ((i + j) / 2) = some false) :
    sortSearchGo f i j false = sortSearchGo f ((i + j) / 2 + 1) j false := by
  rw [sortSearchGo, dif_pos h]
  simp [hf]

/-- Go's `sort.Search` with a readable monotone predicate: no error is
recorded, and the result is the least index in `[i, j]` where the
predicate turns true. -/
theorem sortSearchGo_spec (f : Nat → Option Bool) (g : Nat → Bool) :
    ∀ (d i j : Nat), j - i ≤ d → i ≤ j →
      (∀ p, i ≤ p → p < j → f p = some (g p)) →
      (∀ p q, i ≤ p → p ≤ q → q < j → g p = true → g q = true) →
      (sortSearchGo f i j false).2 = false ∧
      i ≤ (sortSearchGo f i j false).1 ∧
      (sortSearchGo f i j false).1 ≤ j ∧
      (∀ p, i ≤ p → p < (sortSearchGo f i j false).1 → g p = false) ∧
      ((sortSearchGo f i j false).1 < j → g (sortSearchGo f i j false).1 = true) := by
  intro d
  induction d with
  | zero =>
    intro i j hd hij hf mono
    have hji : ¬ i < j := by omega
    rw [sortSearchGo_stop hji]
    exact ⟨rfl, Nat.le_refl _, hij, fun p h1 h2 => absurd h2 (by omega),
      fun h => absurd h hji⟩
  | succ d ih =>
    intro i j hd hij hf mono
    by_cases hlt : i < j
    · have hfm : f ((i + j) / 2) = some (g ((i + j) / 2)) :=
        hf _ (by omega) (by omega)
      cases hgm : g ((i + j) / 2) with
      | true =>
        rw [hgm] at hfm
        rw [sortSearchGo_step_true hlt hfm]
        obtain ⟨e1, e2, e3, e4, e5⟩ := ih i ((i + j) / 2) (by omega) (by omega)
          (fun p hp1 hp2 => hf p hp1 (by omega))
          (fun p q hp hpq hq hgp => mono p q hp hpq (by omega) hgp)
        refine ⟨e1, e2, by omega, e4, ?_⟩
        intro _
        by_cases hrm : (sortSearchGo f i ((i + j) / 2) false).1 < (i + j) / 2
        · exact e5 hrm
        · have hreq : (sortSearchGo f i ((i + j) / 2) false).1 = (i + j) / 2 := by
            omega
          rw [hreq]
          exact hgm
      | false =>
        rw [hgm] at hfm
        rw [sortSearchGo_step_false hlt hfm]
        obtain ⟨e1, e2, e3, e4, e5⟩ := ih ((i + j) / 2 + 1) j (by omega) (by omega)
          (fun p hp1 hp2 => hf p (by omega) hp2)
          (fun p q hp hpq hq hgp => mono p q (by omega) hpq hq hgp)
        refine ⟨e1, by omega, e3, ?_, e5⟩
        intro p hp1 hp2
        by_cases hpm : p ≤ (i + j) / 2
        · cases hgp : g p with
          | false => rfl
          | true =>
            have := mono p ((i + j) / 2) hp1 hpm (by omega) hgp
            rw [hgm] at this
            cases this
        · exact e4 p (by omega) hp2
    · rw [sortSearchGo_stop hlt]
      exact ⟨rfl, Nat.le_refl _, hij, fun p h1 h2 => absurd h2 (by omega),
        fun h => absurd h hlt⟩

/-! ## The binary searches on a built index -/

/-- Placeholder entry for total indexing. -/
def defaultInfoE : InfoE := ⟨[], 0, 0, [], false, 0, 0⟩

/-- The key stored at row `p` of the index built from `S`. -/
def sortedKey (S : List InfoE) (p : Nat) : List Nat :=
  ((sortedContents S).getD p defaultInfoE).contentID

theorem sortedKey_get {S : List InfoE} {p : Nat}
    (hp : p < (sortedContents S).length) :
    sortedKey S p = ((sortedContents S).get ⟨p, hp⟩).contentID := by
  unfold sortedKey
  rw [List.getD_eq_getElem?_getD, List.getElem?_eq_getElem hp]
  rfl

/-- Keys are monotone along the sorted rows. -/
theorem sortedKey_mono {S : List InfoE} {p q : Nat} (hpq : p ≤ q)
    (hq : q < (sortedContents S).length) :
    bytesLe (sortedKey S p) (sortedKey S q) = true := by
  rcases Nat.lt_or_ge p q with hlt | hge
  · have := (List.pairwise_iff_get.1 (sortedContents_sorted S))
      ⟨p, by omega⟩ ⟨q, hq⟩ hlt
    rw [sortedKey_get (by omega), sortedKey_get hq]
    exact this
  · have : p = q := by omega
    rw [this]
    exact bytesLe_refl _

/-- Keys are strictly increasing when the input IDs are distinct. -/
theorem sortedKey_strict {S : List InfoE}
    (h : (S.map InfoE.contentID).Nodup) {p q : Nat} (hpq : p < q)
    (hq : q < (sortedContents S).length) :
    bytesLt (sortedKey S p) (sortedKey S q) = true := by
  have := (List.pairwise_iff_get.1 (sortedKeys_strict h)) ⟨p, by omega⟩ ⟨q, hq⟩ hpq
  rw [sortedKey_get (by omega), sortedKey_get hq]
  exact this

theorem builtIndex_keySize {S : List InfoE} {k : Nat} (suffix : List Nat)
    (overhead : Nat) (hval : ValidInput S k) (hne : S ≠ []) :
    (builtIndex S suffix overhead).keySize = k :=
  keyLengthByte_sorted hval.2.2.1 (by have := hval.2.1; omega) hne

/-- Reading row `i` of the built file returns `key || entry` of the
`i`-th sorted entry. -/
theorem builtIndex_readRow {S : List InfoE} {k : Nat} (suffix : List Nat)
    (hval : ∀ e ∈ S, ValidEntry k e) {i : Nat}
    (hi : i < (sortedContents S).length) :
    readAt (buildFile S suffix)
        (packHeaderSize + (k + entryFixedHeaderLength) * i)
        (k + entryFixedHeaderLength) =
      some (buildRow S ((sortedContents S).get ⟨i, hi⟩)) := by
  have hmap : i < ((sortedContents S).map (buildRow S)).length := by
    simpa using hi
  have h := readAt_chunks (w := k + entryFixedHeaderLength)
    ((sortedContents S).map (buildRow S)) (buildHeader S) (builtExtra S ++ suffix)
    (fun c hc => by
      obtain ⟨e, he, hce⟩ := List.mem_map.1 hc
      rw [← hce]
      exact buildRow_length hval he)
    i hmap
  rw [buildHeader_length] at h
  have hfile : buildFile S suffix =
      buildHeader S ++ ((sortedContents S).map (buildRow S)).flatten ++
        (builtExtra S ++ suffix) := by
    simp [buildFile]
  rw [hfile]
  rw [show (packHeaderSize : Nat) = 8 from rfl]
  rw [h]
  congr 1
  exact List.get_map _

theorem buildRow_take {S : List InfoE} {k : Nat}
    (hval : ∀ e ∈ S, ValidEntry k e) {p : Nat}
    (hp : p < (sortedContents S).length) :
    (buildRow S ((sortedContents S).get ⟨p, hp⟩)).take k = sortedKey S p := by
  unfold buildRow contentIDToBytes
  rw [List.take_append_of_le_length
      (by rw [(hval _ (sortedContents_mem.1 (List.get_mem _ _ hp))).1]),
    List.take_of_length_le
      (by rw [(hval _ (sortedContents_mem.1 (List.get_mem _ _ hp))).1]),
    sortedKey_get hp]

theorem buildRow_drop {S : List InfoE} {k : Nat}
    (hval : ∀ e ∈ S, ValidEntry k e) {e : InfoE} (he : e ∈ sortedContents S) :
    (buildRow S e).drop k = entryBytes (builtExtraOff S) (builtOffs S) e := by
  unfold buildRow contentIDToBytes
  rw [List.drop_left' (hval _ (sortedContents_mem.1 he)).1]

theorem builtIndex_probe {S : List InfoE} {k : Nat} (suffix : List Nat)
    (overhead : Nat) (hval : ValidInput S k) (hne : S ≠ []) (target : List Nat)
    {p : Nat} (hp : p < (sortedContents S).length) :
    findPositionProbe (builtIndex S suffix overhead) target p =
      some (bytesLe target (sortedKey S p)) := by
  have hks := builtIndex_keySize suffix overhead hval hne
  have hvs : (builtIndex S suffix overhead).valueSize = entryFixedHeaderLength := rfl
  have hfd : (builtIndex S suffix overhead).fileData = buildFile S suffix := rfl
  simp only [findPositionProbe, hks, hvs, hfd,
    builtIndex_readRow suffix hval.2.2.1 hp, bytesToContentID,
    buildRow_take hval.2.2.1 hp]

theorem builtIndex_exactProbe {S : List InfoE} {k : Nat} (suffix : List Nat)
    (overhead : Nat) (hval : ValidInput S k) (hne : S ≠ []) (idBytes : List Nat)
    {p : Nat} (hp : p < (sortedContents S).length) :
    findPositionExactProbe (builtIndex S suffix overhead) idBytes p =
      some (bytesLe idBytes (sortedKey S p)) := by
  have hks := builtIndex_keySize suffix overhead hval hne
  have hvs : (builtIndex S suffix overhead).valueSize = entryFixedHeaderLength := rfl
  have hfd : (builtIndex S suffix overhead).fileData = buildFile S suffix := rfl
  simp only [findPositionExactProbe, hks, hvs, hfd,
    builtIndex_readRow suffix hval.2.2.1 hp, contentIDBytesGreaterOrEqual,
    buildRow_take hval.2.2.1 hp]

/-- `findEntryPosition` on a built index returns the least row whose key
is `≥` the target. -/
theorem builtIndex_findPos {S : List InfoE} {k : Nat} (suffix : List Nat)
    (overhead : Nat) (hval : ValidInput S k) (hne : S ≠ []) (target : List Nat) :
    ∃ pos, findEntryPosition (builtIndex S suffix overhead) target = .ok pos ∧
      pos ≤ (sortedContents S).length ∧
      (∀ p, p < pos → bytesLe target (sortedKey S p) = false) ∧
      (pos < (sortedContents S).length →
        bytesLe target (sortedKey S pos) = true) := by
  have hcount : (builtIndex S suffix overhead).entryCount =
      (sortedContents S).length := rfl
  obtain ⟨e1, e2, e3, e4, e5⟩ := sortSearchGo_spec
    (findPositionProbe (builtIndex S suffix overhead) target)
    (fun p => bytesLe target (sortedKey S p))
    (sortedContents S).length 0 (sortedContents S).length
    (by omega) (by omega)
    (fun p _ hp => builtIndex_probe suffix overhead hval hne target hp)
    (fun p q _ hpq hq hgp => bytesLe_trans hgp (sortedKey_mono hpq hq))
  refine ⟨(sortSearchGo (findPositionProbe (builtIndex S suffix overhead) target)
      0 (sortedContents S).length false).1, ?_, e3, fun p hp => e4 p (by omega) hp, e5⟩
  unfold findEntryPosition
  rw [hcount]
  simp [e1]

/-- `findEntryPositionExact` on a built index returns the least row whose
key is `≥` the searched key bytes. -/
theorem builtIndex_findPosExact {S : List InfoE} {k : Nat} (suffix : List Nat)
    (overhead : Nat) (hval : ValidInput S k) (hne : S ≠ []) (idBytes : List Nat) :
    ∃ pos, findEntryPositionExact (builtIndex S suffix overhead) idBytes = .ok pos ∧
      pos ≤ (sortedContents S).length ∧
      (∀ p, p < pos → bytesLe idBytes (sortedKey S p) = false) ∧
      (pos < (sortedContents S).length →
        bytesLe idBytes (sortedKey S pos) = true) := by
  have hcount : (builtIndex S suffix overhead).entryCount =
      (sortedContents S).length := rfl
  obtain ⟨e1, e2, e3, e4, e5⟩ := sortSearchGo_spec
    (findPositionExactProbe (builtIndex S suffix overhead) idBytes)
    (fun p => bytesLe idBytes (sortedKey S p))
    (sortedContents S).length 0 (sortedContents S).length
    (by omega) (by omega)
    (fun p _ hp => builtIndex_exactProbe suffix overhead hval hne idBytes hp)
    (fun p q _ hpq hq hgp => bytesLe_trans hgp (sortedKey_mono hpq hq))
  refine ⟨(sortSearchGo (findPositionExactProbe (builtIndex S suffix overhead) idBytes)
      0 (sortedContents S).length false).1, ?_, e3, fun p hp => e4 p (by omega) hp, e5⟩
  unfold findEntryPositionExact
  rw [hcount]
  simp [e1]

/-! ## The iteration loop on a built index -/

theorem builtIndex_valueSize (S : List InfoE) (suffix : List Nat) (overhead : Nat) :
    (builtIndex S suffix overhead).valueSize = entryFixedHeaderLength := rfl

theorem builtIndex_fileData (S : List InfoE) (suffix : List Nat) (overhead : Nat) :
    (builtIndex S suffix overhead).fileData = buildFile S suffix := rfl

theorem builtIndex_entryCount (S : List InfoE) (suffix : List Nat) (overhead : Nat) :
    (builtIndex S suffix overhead).entryCount = (sortedContents S).length := rfl

theorem iterateFrom_stop {σ : Type} {b : IndexV1} {endID : List Nat}
    {cb : σ → IndexEntryInfoV1 → Except String σ} {i : Nat}
    (h : ¬ i < b.entryCount) (s : σ) : iterateFrom b endID cb i s = .ok s := by
  rw [iterateFrom]
  simp [h]

/-- The loop from row `p` runs the callback over the parsed views of the
sorted entries from `p` on, stopping at the first key `≥ endID`. -/
theorem iterateFrom_built {S : List InfoE} {k : Nat} (suffix : List Nat)
    (overhead : Nat) (hval : ValidInput S k) (hne : S ≠ []) (endID : List Nat)
    {σ : Type} (cb : σ → IndexEntryInfoV1 → Except String σ) :
    ∀ (d p : Nat), (sortedContents S).length - p ≤ d → ∀ s : σ,
      iterateFrom (builtIndex S suffix overhead) endID cb p s =
        List.foldlM cb s
          ((((sortedContents S).drop p).takeWhile
            (fun e => bytesLt e.contentID endID)).map
              (builtView S suffix overhead)) := by
  intro d
  induction d with
  | zero =>
    intro p hd s
    have hp : ¬ p < (sortedContents S).length := by omega
    rw [iterateFrom_stop (by exact hp), List.drop_eq_nil_of_le (by omega)]
    rfl
  | succ d ih =>
    intro p hd s
    by_cases hp : p < (sortedContents S).length
    · have hks := builtIndex_keySize suffix overhead hval hne
      have hread := builtIndex_readRow suffix hval.2.2.1 hp
      have hdrop : (sortedContents S).drop p =
          (sortedContents S).get ⟨p, hp⟩ :: (sortedContents S).drop (p + 1) := by
        rw [List.drop_eq_getElem_cons hp]
        rfl
      have hmem : (sortedContents S).get ⟨p, hp⟩ ∈ sortedContents S :=
        List.get_mem _ _ _
      rw [iterateFrom, dif_pos (show p < (builtIndex S suffix overhead).entryCount
        from hp)]
      simp only [builtIndex_fileData, builtIndex_valueSize, hks, hread]
      rw [hdrop, List.takeWhile_cons]
      have hbreak : bytesLe endID
          (bytesToContentID ((buildRow S ((sortedContents S).get ⟨p, hp⟩)).take k)) =
          !(bytesLt ((sortedContents S).get ⟨p, hp⟩).contentID endID) := by
        rw [buildRow_take hval.2.2.1 hp, sortedKey_get hp]
        rfl
      cases hlt : bytesLt ((sortedContents S).get ⟨p, hp⟩).contentID endID with
      | false =>
        rw [hlt] at hbreak
        simp only [hbreak, Bool.not_false, if_true, Bool.false_eq_true, if_false]
        rfl
      | true =>
        rw [hlt] at hbreak
        simp only [hbreak, Bool.not_true, Bool.false_eq_true, if_false, if_true]
        have hinfo : entryToInfo (builtIndex S suffix overhead)
            (bytesToContentID ((buildRow S ((sortedContents S).get ⟨p, hp⟩)).take k))
            ((buildRow S ((sortedContents S).get ⟨p, hp⟩)).drop k) =
            .ok (builtView S suffix overhead ((sortedContents S).get ⟨p, hp⟩)) := by
          rw [buildRow_take hval.2.2.1 hp, sortedKey_get hp,
            buildRow_drop hval.2.2.1 hmem, entryToInfo,
            if_neg (by rw [entryBytes_length]; decide)]
          rfl
        rw [hinfo]
        rw [List.map_cons, List.foldlM_cons]
        show (match cb s (builtView S suffix overhead
            ((sortedContents S).get ⟨p, hp⟩)) with
          | Except.error e => Except.error e
          | Except.ok s2 =>
              iterateFrom (builtIndex S suffix overhead) endID cb (p + 1) s2) = _
        cases hcb : cb s (builtView S suffix overhead
            ((sortedContents S).get ⟨p, hp⟩)) with
        | error e => rfl
        | ok s2 => exact ih (p + 1) (by omega) s2
    · rw [iterateFrom_stop (by exact hp), List.drop_eq_nil_of_le (by omega)]
      rfl

/-- Mixed transitivity: `a ≤ b` and `b < c` give `a < c`. -/
theorem bytesLe_lt_trans {a b c : List Nat} (h1 : bytesLe a b = true)
    (h2 : bytesLt b c = true) : bytesLt a c = true := by
  rw [bytesLe_iff] at h1
  rcases bytesLt_trichotomy a c with h | h | h
  · exact h
  · rw [bytesLt_trans h2 h] at h1
    exact absurd h1 (by simp)
  · subst h
    rw [h2] at h1
    exact absurd h1 (by simp)

/-- On a list where the test is downward closed (holding at a later element
forces it at every earlier one), `takeWhile` and `filter` agree. -/
theorem takeWhile_eq_filter_of_closed {α : Type} {q : α → Bool} {M : List α}
    (h : List.Pairwise (fun a b => q b = true → q a = true) M) :
    M.takeWhile q = M.filter q := by
  induction M with
  | nil => rfl
  | cons a M ih =>
    rw [List.pairwise_cons] at h
    rw [List.takeWhile_cons, List.filter_cons]
    cases hq : q a with
    | false =>
      simp only [Bool.false_eq_true, if_false]
      rw [Eq.symm (List.filter_eq_nil_iff.2
        (fun b hb hqb => absurd (h.1 b hb hqb) (by simp [hq])))]
    | true =>
      simp only [if_true]
      rw [ih h.2]

/-- At the starting position the search returns, dropping the rows before
it and stopping at the first key `≥ endID` is exactly the range filter. -/
theorem drop_takeWhile_eq_filter {S : List InfoE} (startID endID : List Nat)
    {pos : Nat} (hle : pos ≤ (sortedContents S).length)
    (hlo : ∀ p, p < pos → bytesLe startID (sortedKey S p) = false)
    (hhi : pos < (sortedContents S).length →
      bytesLe startID (sortedKey S pos) = true) :
    ((sortedContents S).drop pos).takeWhile
        (fun e => bytesLt e.contentID endID) =
      (sortedContents S).filter
        (fun e => bytesLe startID e.contentID && bytesLt e.contentID endID) := by
  have hpair : List.Pairwise
      (fun a b : InfoE => bytesLt b.contentID endID = true →
        bytesLt a.contentID endID = true) ((sortedContents S).drop pos) :=
    (((sortedContents_sorted S).sublist (List.drop_sublist _ _)).imp
      (fun hab hb => bytesLe_lt_trans hab hb))
  rw [takeWhile_eq_filter_of_closed hpair]
  conv_rhs => rw [← List.take_append_drop pos (sortedContents S)]
  rw [List.filter_append]
  have htake : ((sortedContents S).take pos).filter
      (fun e => bytesLe startID e.contentID && bytesLt e.contentID endID) = [] := by
    rw [List.filter_eq_nil_iff]
    intro e he
    obtain ⟨i, hi, hget⟩ := List.getElem_of_mem he
    have hilen : i < (sortedContents S).length := by
      have := List.length_take pos (sortedContents S)
      omega
    have hie : (sortedContents S)[i] = e := by
      rw [← hget, List.getElem_take]
    have hipos : i < pos := by
      have := List.length_take pos (sortedContents S)
      omega
    have := hlo i hipos
    rw [sortedKey_get hilen] at this
    simp only [List.get_eq_getElem, hie] at this
    simp [this]
  have hdrop : ((sortedContents S).drop pos).filter
      (fun e => bytesLe startID e.contentID && bytesLt e.contentID endID) =
      ((sortedContents S).drop pos).filter
        (fun e => bytesLt e.contentID endID) := by
    apply List.filter_congr
    intro e he
    obtain ⟨j, hj, hget⟩ := List.getElem_of_mem he
    have hjlen : pos + j < (sortedContents S).length := by
      have := List.length_drop pos (sortedContents S)
      omega
    have hje : (sortedContents S)[pos + j] = e := by
      rw [← hget, List.getElem_drop]
    have hpos : pos < (sortedContents S).length := by omega
    have hs1 := hhi hpos
    have hs2 := sortedKey_mono (Nat.le_add_right pos j) hjlen
    have hs3 := bytesLe_trans hs1 hs2
    rw [sortedKey_get hjlen] at hs3
    simp only [List.get_eq_getElem, hje] at hs3
    simp [hs3]
  rw [htake, hdrop, List.nil_append]

/-- `Iterate` on a built index folds the callback over the range filter of
the sorted entries, in order; an error from the callback short-circuits the
fold and is returned. -/
theorem Iterate_built {S : List InfoE} {k : Nat} (suffix : List Nat)
    (overhead : Nat) (hval : ValidInput S k) (hne : S ≠ []) (r : IDRange)
    {σ : Type} (cb : σ → IndexEntryInfoV1 → Except String σ) (s : σ) :
    Iterate (builtIndex S suffix overhead) r cb s =
      List.foldlM cb s
        (((sortedContents S).filter
          (fun e => bytesLe r.StartID e.contentID &&
            bytesLt e.contentID r.EndID)).map (builtView S suffix overhead)) := by
  obtain ⟨pos, hfind, hposle, hlo, hhi⟩ :=
    builtIndex_findPos suffix overhead hval hne r.StartID
  rw [Iterate, hfind]
  show iterateFrom (builtIndex S suffix overhead) r.EndID cb pos s = _
  rw [iterateFrom_built suffix overhead hval hne r.EndID cb
    ((sortedContents S).length - pos) pos (by omega) s]
  rw [drop_takeWhile_eq_filter r.StartID r.EndID hposle hlo hhi]

/-- Folding an always-`ok` collector just maps over the list. -/
theorem foldlM_collect {α β : Type} (g : α → β) (l : List α) (acc : List β) :
    List.foldlM (fun a v => (Except.ok (a ++ [g v]) : Except String (List β)))
        acc l = Except.ok (acc ++ l.map g) := by
  induction l generalizing acc with
  | nil =>
    show (pure acc : Except String (List β)) = Except.ok (acc ++ [].map g)
    simp [pure, Except.pure]
  | cons x xs ih =>
    rw [List.foldlM_cons]
    have hstep : (Except.ok (acc ++ [g x]) >>= fun a =>
        List.foldlM (fun a v =>
          (Except.ok (a ++ [g v]) : Except String (List β))) a xs) =
        List.foldlM (fun a v =>
          (Except.ok (a ++ [g v]) : Except String (List β))) (acc ++ [g x]) xs :=
      rfl
    rw [hstep, ih]
    simp

/-- The exact binary search finds a present key at its own row. -/
theorem builtIndex_findPosExact_mem {S : List InfoE} {k : Nat}
    (suffix : List Nat) (overhead : Nat) (hval : ValidInput S k) (hne : S ≠ [])
    {i : Nat} (hi : i < (sortedContents S).length) :
    findEntryPositionExact (builtIndex S suffix overhead) (sortedKey S i) =
      .ok i := by
  obtain ⟨pos, hfind, hposle, hlo, hhi⟩ :=
    builtIndex_findPosExact suffix overhead hval hne (sortedKey S i)
  have hnd := hval.2.2.2
  have hpos : pos = i := by
    by_contra hnei
    rcases Nat.lt_or_ge pos i with hlt | hge
    · have h1 := hhi (by omega)
      have h2 := sortedKey_strict hnd hlt hi
      rw [bytesLe_iff, h2] at h1
      exact absurd h1 (by simp)
    · have hlt : i < pos := by omega
      have h1 := hlo i hlt
      rw [bytesLe_refl] at h1
      exact absurd h1 (by simp)
  rw [hpos] at hfind
  exact hfind

/-- `findEntry` returns the entry bytes of a stored content ID. -/
theorem findEntry_mem {S : List InfoE} {k : Nat} (suffix : List Nat)
    (overhead : Nat) (hval : ValidInput S k) (hne : S ≠ []) {e : InfoE}
    (he : e ∈ sortedContents S) :
    findEntry (builtIndex S suffix overhead) e.contentID =
      .ok (some (entryBytes (builtExtraOff S) (builtOffs S) e)) := by
  obtain ⟨i, hi, hget⟩ := List.getElem_of_mem he
  have hget' : (sortedContents S).get ⟨i, hi⟩ = e := by
    rw [List.get_eq_getElem, hget]
  have hks := builtIndex_keySize suffix overhead hval hne
  have hklen : e.contentID.length = k :=
    (hval.2.2.1 e (sortedContents_mem.1 he)).1
  have hkeyi : sortedKey S i = e.contentID := by
    rw [sortedKey_get hi, hget']
  have hfind := builtIndex_findPosExact_mem suffix overhead hval hne hi
  rw [hkeyi] at hfind
  have hkid : contentIDToBytes e.contentID = e.contentID := rfl
  simp only [findEntry, hkid, hks, hklen]
  rw [if_neg (show ¬ (k = unknownKeySize) by
    have := hval.2.1
    unfold unknownKeySize
    omega)]
  rw [if_neg (show ¬ (k ≠ k) from fun h => h rfl)]
  rw [hfind]
  show (if i ≥ (builtIndex S suffix overhead).entryCount then
      (.ok none : Except String (Option (List Nat)))
    else _) = _
  rw [builtIndex_entryCount, if_neg (by omega)]
  rw [builtIndex_valueSize, builtIndex_fileData,
    builtIndex_readRow suffix hval.2.2.1 hi, hget']
  show (if (buildRow S e).take k = e.contentID then
      (.ok (some ((buildRow S e).drop k)) : Except String (Option (List Nat)))
    else .ok none) = _
  have htake : (buildRow S e).take k = e.contentID := by
    have := buildRow_take hval.2.2.1 hi
    rw [hget'] at this
    rw [this, hkeyi]
  rw [if_pos htake, buildRow_drop hval.2.2.1 he]

/-- `findEntry` returns `none` for an absent content ID of the right
length. -/
theorem findEntry_notmem {S : List InfoE} {k : Nat} (suffix : List Nat)
    (overhead : Nat) (hval : ValidInput S k) (hne : S ≠ []) {id : List Nat}
    (hlen : id.length = k) (hid : id ∉ S.map InfoE.contentID) :
    findEntry (builtIndex S suffix overhead) id = .ok none := by
  obtain ⟨pos, hfind, hposle, hlo, hhi⟩ :=
    builtIndex_findPosExact suffix overhead hval hne id
  have hks := builtIndex_keySize suffix overhead hval hne
  have hkid : contentIDToBytes id = id := rfl
  simp only [findEntry, hkid, hks, hlen]
  rw [if_neg (show ¬ (k = unknownKeySize) by
    have := hval.2.1
    unfold unknownKeySize
    omega)]
  rw [if_neg (show ¬ (k ≠ k) from fun h => h rfl)]
  rw [hfind]
  show (if pos ≥ (builtIndex S suffix overhead).entryCount then
      (.ok none : Except String (Option (List Nat)))
    else _) = _
  rw [builtIndex_entryCount]
  rcases Nat.lt_or_ge pos (sortedContents S).length with hpos | hpos
  · rw [if_neg (by omega)]
    rw [builtIndex_valueSize, builtIndex_fileData,
      builtIndex_readRow suffix hval.2.2.1 hpos]
    show (if (buildRow S ((sortedContents S).get ⟨pos, hpos⟩)).take k = id then
        (.ok (some ((buildRow S ((sortedContents S).get ⟨pos, hpos⟩)).drop k)) :
          Except String (Option (List Nat)))
      else .ok none) = _
    have hne2 : (buildRow S ((sortedContents S).get ⟨pos, hpos⟩)).take k ≠ id := by
      rw [buildRow_take hval.2.2.1 hpos]
      intro hcontra
      apply hid
      rw [← hcontra, sortedKey_get hpos]
      exact List.mem_map.2 ⟨(sortedContents S).get ⟨pos, hpos⟩,
        sortedContents_mem.1 (List.get_mem _ _ _), rfl⟩
    rw [if_neg hne2]
  · rw [if_pos (by omega)]

/-! ## Claims C1, C7, C8 -/

/-- Concrete index entry for the witnesses. -/
def wE1 : InfoE := ⟨[2, 7], 1000, 1, [80], false, 5, 100⟩

/-- Concrete index entry for the witnesses. -/
def wE2 : InfoE := ⟨[1, 3], 123456, 2, [81, 82], true, 7, 999⟩

/-- Concrete build input for the witnesses. -/
def wS : List InfoE := [wE1, wE2]

/-- Concrete random suffix for the witnesses. -/
def wSuffix : List Nat := List.replicate 32 9

/-- C1: building a v1 index from a valid entry set `S` (distinct content
IDs of one key length, valid metadata), opening the file, and iterating
the entire range (empty start ID, end ID above every stored ID) yields
exactly the entries of `S` sorted ascending by key bytes, every field —
timestamp, format version, pack blob ID, deleted flag, pack offset,
packed length — equal to the values given at build time. -/
theorem c1_build_open_iterate_roundtrip {S : List InfoE} {k : Nat}
    (suffix : List Nat) (overhead : Nat) (hval : ValidInput S k)
    (hfits : buildFits S k) (hne : S ≠ []) (endID : List Nat)
    (hend : ∀ e ∈ S, bytesLt e.contentID endID = true) :
    ∃ file idx out,
      buildV1 S suffix = .ok file ∧
      openV1 file overhead = .ok idx ∧
      Iterate idx ⟨[], endID⟩
        (fun acc v => Except.ok (acc ++ [viewFields v])) [] = .ok out ∧
      out = sortedContents S ∧
      out.Perm S ∧
      List.Pairwise (fun a b => bytesLt a.contentID b.contentID = true) out := by
  refine ⟨buildFile S suffix, builtIndex S suffix overhead, sortedContents S,
    buildV1_eq suffix hval, openV1_built suffix overhead hval hfits, ?_, rfl,
    sortedContents_perm S, sortedKeys_strict hval.2.2.2⟩
  have hout : Iterate (builtIndex S suffix overhead) ⟨[], endID⟩
      (fun acc v => Except.ok (acc ++ [viewFields v])) ([] : List InfoE) =
      List.foldlM (fun acc v => Except.ok (acc ++ [viewFields v])) []
        (((sortedContents S).filter
          (fun e => bytesLe [] e.contentID && bytesLt e.contentID endID)).map
            (builtView S suffix overhead)) :=
    Iterate_built suffix overhead hval hne ⟨[], endID⟩ _ _
  have hfilter : (sortedContents S).filter
      (fun e => bytesLe [] e.contentID && bytesLt e.contentID endID) =
      sortedContents S := by
    rw [List.filter_eq_self]
    intro e he
    simp [bytesLt_nil_le, hend e (sortedContents_mem.1 he)]
  rw [hout, hfilter, foldlM_collect viewFields, List.nil_append]
  congr 1
  rw [List.map_map]
  have hcong : ∀ e ∈ sortedContents S,
      (viewFields ∘ builtView S suffix overhead) e = id e := fun e he =>
    viewFields_built suffix overhead hval hfits he
  rw [List.map_congr_left hcong, List.map_id]

theorem c1_build_open_iterate_roundtrip_witness :
    ValidInput wS 2 ∧ buildFits wS 2 ∧ wS ≠ [] ∧
      (∀ e ∈ wS, bytesLt e.contentID [255, 255] = true) ∧
      (∃ file idx out,
        buildV1 wS wSuffix = .ok file ∧
        openV1 file 1 = .ok idx ∧
        Iterate idx ⟨[], [255, 255]⟩
          (fun acc v => Except.ok (acc ++ [viewFields v])) [] = .ok out ∧
        out = sortedContents wS ∧
        out.Perm wS ∧
        List.Pairwise (fun a b => bytesLt a.contentID b.contentID = true) out) :=
  ⟨by decide, by decide, by decide, by decide,
    c1_build_open_iterate_roundtrip (S := wS) (k := 2) wSuffix 1 (by decide)
      (by decide) (by decide) [255, 255] (by decide)⟩

/-- C7: on a well-formed built v1 index, `Iterate` with range
`{StartID, EndID}` folds the callback, in ascending key order, exactly
over the entries of `S` whose content ID satisfies
`StartID ≤ id < EndID`; the fold in the error monad also says a callback
error stops the iteration and is returned to the caller. -/
theorem c7_iterate_range {S : List InfoE} {k : Nat} (suffix : List Nat)
    (overhead : Nat) (hval : ValidInput S k) (hne : S ≠ []) (r : IDRange)
    {σ : Type} (cb : σ → IndexEntryInfoV1 → Except String σ) (s : σ) :
    Iterate (builtIndex S suffix overhead) r cb s =
      List.foldlM cb s
        (((sortedContents S).filter
          (fun e => bytesLe r.StartID e.contentID &&
            bytesLt e.contentID r.EndID)).map (builtView S suffix overhead)) :=
  Iterate_built suffix overhead hval hne r cb s

theorem c7_iterate_range_witness :
    ValidInput wS 2 ∧ wS ≠ [] ∧
      Iterate (builtIndex wS wSuffix 1) ⟨[1, 9], [9, 9]⟩
          (fun acc v => Except.ok (acc ++ [v]))
          ([] : List IndexEntryInfoV1) =
        List.foldlM (fun acc v => Except.ok (acc ++ [v])) []
          (((sortedContents wS).filter
            (fun e => bytesLe [1, 9] e.contentID &&
              bytesLt e.contentID [9, 9])).map (builtView wS wSuffix 1)) :=
  ⟨by decide, by decide,
    c7_iterate_range (S := wS) (k := 2) wSuffix 1 (by decide) (by decide)
      ⟨[1, 9], [9, 9]⟩ _ _⟩

/-- C8: on a well-formed built v1 index, `GetInfo` returns the stored view
(whose fields are the build-time values) for every ID in `S`; returns
`ok none` without error for every absent ID of the key length — which
includes IDs merely sharing a prefix with a stored key, once padded to the
key length — returns an error when the ID's encoded length differs from
the index's key size; and on the index built from no entries (the empty
sentinel with unknown key size) returns `ok none` for every ID. -/
theorem c8_getinfo_lookup {S : List InfoE} {k : Nat} (suffix : List Nat)
    (overhead : Nat) (hval : ValidInput S k) (hfits : buildFits S k)
    (hne : S ≠ []) :
    (∀ e ∈ S,
      GetInfo (builtIndex S suffix overhead) e.contentID =
        .ok (some (builtView S suffix overhead e)) ∧
      viewFields (builtView S suffix overhead e) = e) ∧
    (∀ id, id.length = k → id ∉ S.map InfoE.contentID →
      GetInfo (builtIndex S suffix overhead) id = .ok none) ∧
    (∀ id, id.length ≠ k →
      GetInfo (builtIndex S suffix overhead) id =
        .error "invalid content ID") ∧
    (∀ id, GetInfo (builtIndex [] suffix overhead) id = .ok none) := by
  refine ⟨?_, ?_, ?_, ?_⟩
  · intro e he
    have hes : e ∈ sortedContents S := sortedContents_mem.2 he
    refine ⟨?_, viewFields_built suffix overhead hval hfits hes⟩
    rw [GetInfo, findEntry_mem suffix overhead hval hne hes]
    show (entryToInfo (builtIndex S suffix overhead) e.contentID
      (entryBytes (builtExtraOff S) (builtOffs S) e)).map some = _
    rw [entryToInfo, if_neg (by rw [entryBytes_length]; decide)]
    rfl
  · intro id hlen hid
    rw [GetInfo, findEntry_notmem suffix overhead hval hne hlen hid]
  · intro id hlen
    have hks := builtIndex_keySize suffix overhead hval hne
    have hkid : contentIDToBytes id = id := rfl
    have hfe : findEntry (builtIndex S suffix overhead) id =
        .error "invalid content ID" := by
      simp only [findEntry, hkid, hks]
      rw [if_neg (show ¬ (k = unknownKeySize) by
        have := hval.2.1
        unfold unknownKeySize
        omega)]
      rw [if_pos hlen]
    rw [GetInfo, hfe]
  · intro id
    have hsent : (builtIndex [] suffix overhead).keySize = unknownKeySize := rfl
    have hfe : findEntry (builtIndex [] suffix overhead) id = .ok none := by
      simp only [findEntry, hsent]
      simp
    rw [GetInfo, hfe]

theorem c8_getinfo_lookup_witness :
    ValidInput wS 2 ∧ buildFits wS 2 ∧ wS ≠ [] ∧
      ((∀ e ∈ wS,
        GetInfo (builtIndex wS wSuffix 1) e.contentID =
          .ok (some (builtView wS wSuffix 1 e)) ∧
        viewFields (builtView wS wSuffix 1 e) = e) ∧
      (∀ id, id.length = 2 → id ∉ wS.map InfoE.contentID →
        GetInfo (builtIndex wS wSuffix 1) id = .ok none) ∧
      (∀ id, id.length ≠ 2 →
        GetInfo (builtIndex wS wSuffix 1) id =
          .error "invalid content ID") ∧
      (∀ id, GetInfo (builtIndex [] wSuffix 1) id = .ok none)) :=
  ⟨by decide, by decide, by decide,
    c8_getinfo_lookup (S := wS) (k := 2) wSuffix 1 (by decide) (by decide)
      (by decide)⟩

end Kopia
